import Mathlib

/-!
Verification of the persistence-resilience and cross-store reconciliation core
of the franktorio-xsouls-lab repository.

The development shallowly embeds:
* the room store handler (`src/datamanager/db_handlers/room_db_handler.py`):
  the `room_db` SQLite table becomes an association list of room names to
  records, and each handler function becomes a pure state transformer;
* the reconciliation task (`src/tasks/sync_databases.py`): classification of
  entities into buckets and the four per-bucket apply phases, with Python
  exceptions modelled in `Except`;
* the external API surface consumed by the task
  (`src/api/external_api.py`): the keyword-argument binding of
  `export_room_to_api` is modelled by its parameter-name list, since the
  reconciliation task passes a `timestamp=` keyword this signature rejects;
* the backup manager (`src/datamanager/backup_manager.py`): replica/snapshot
  restoration, the recovery cascade, the retention sweep, and the integrity
  check built on `connect_db` (`src/datamanager/database_manager.py`).

Timestamps are modelled as `Int`; file contents in the backup model as `Nat`.
-/

namespace FRD

/-- One entry of the `edits` JSON column of `room_db`
(see `document_room` in `room_db_handler.py`). -/
structure EditEntry where
  timestamp : Int
  previous_room_name : String
  previous_picture_urls : List String
  previous_tags : List String
  previous_description : String
  previous_roomtype : String
  previous_doc_by_user_id : Int
  edited_by_user_id : Int
deriving DecidableEq

/-- One row of the `room_db` table (schema in `room_db_handler.py`). -/
structure LocalRoom where
  picture_urls : List String
  description : String
  last_updated : Int
  doc_by_user_id : Int
  edits : List EditEntry
  tags : List String
  roomtype : String
  edited_by_user_id : Option Int
deriving DecidableEq

/-- The `room_db` table: rows in insertion (rowid) order, keyed by
`room_name`. -/
abbrev LocalDb : Type := List (String × LocalRoom)

/-- One entity of the remote bulk export
(`rooms` mapping returned by `export_database_api`). -/
structure ExtRoom where
  images : List String
  description : String
  tags : List String
  roomtype : String
  documented_by : Int
  last_edited : Int
  last_edited_by : Option Int
deriving DecidableEq

/-- The remote entity set: a Python dict, i.e. distinct keys in insertion
order. -/
abbrev ExtDb : Type := List (String × ExtRoom)

/-- SQLite's `LOWER`: ASCII lowercasing, character by character
(`Char.toLower` maps exactly the ASCII uppercase range). -/
def sqliteLower (s : String) : String :=
  ⟨s.data.map Char.toLower⟩

/-- Python's `str.startswith` for a single literal prefix argument. -/
def pyStartsWith (s pre : String) : Bool :=
  pre.data.isPrefixOf s.data

/-- `get_roominfo`: `SELECT ... WHERE LOWER(room_name) = LOWER(?)` —
case-insensitive lookup returning the first matching row. -/
def get_roominfo (db : LocalDb) (room_name : String) : Option LocalRoom :=
  (db.find? (fun p => sqliteLower p.1 == sqliteLower room_name)).map (fun p => p.2)

/-- Exact-name lookup (`WHERE room_name = ?`), as used by `replace_doc` and
`document_room`. -/
def lookupExact (db : LocalDb) (room_name : String) : Option LocalRoom :=
  (db.find? (fun p => p.1 == room_name)).map (fun p => p.2)

/-- `UPDATE room_db SET ... WHERE room_name = ?`: rewrite the record of every
row whose name matches exactly. -/
def updateRow (db : LocalDb) (room_name : String) (r : LocalRoom) : LocalDb :=
  db.map (fun p => if p.1 == room_name then (p.1, r) else p)

/-- Python truthiness of `edited_by_user_id if edited_by_user_id else
doc_by_user_id`: `None` and `0` both fall back to `doc_by_user_id`. -/
def truthyEditor (edited_by_user_id : Option Int) (doc_by_user_id : Int) : Int :=
  match edited_by_user_id with
  | some e => if e == 0 then doc_by_user_id else e
  | none => doc_by_user_id

/-- `replace_doc` of `room_db_handler.py`: replace a room's documentation
wholesale.  When the `edits` argument is `None` and the room exists (exact
name match), the existing edit history is kept; otherwise history defaults to
`[]`.  An existing row is updated in place, a missing one is inserted. -/
def replace_doc (db : LocalDb) (room_name : String) (picture_urls : List String)
    (description : String) (doc_by_user_id : Int) (tags : List String)
    (roomtype : String) (timestamp : Int) (edited_by_user_id : Option Int)
    (edits : Option (List EditEntry)) : LocalDb :=
  let existing := lookupExact db room_name
  let newEdits : List EditEntry :=
    match edits with
    | some e => e
    | none =>
      match existing with
      | some r => r.edits
      | none => []
  let newRow : LocalRoom :=
    { picture_urls := picture_urls
      description := description
      last_updated := timestamp
      doc_by_user_id := doc_by_user_id
      edits := newEdits
      tags := tags
      roomtype := roomtype
      edited_by_user_id := edited_by_user_id }
  match existing with
  | some _ => updateRow db room_name newRow
  | none => db ++ [(room_name, newRow)]

/-- The edit-history entry appended by `document_room` when the room already
exists, recording the previous payload.  Its timestamp falls back to the
current wall-clock time only when the passed timestamp equals `0`. -/
def documentEditEntry (nowTs : Int) (room_name : String) (old : LocalRoom)
    (doc_by_user_id : Int) (timestamp : Int) (edited_by_user_id : Option Int) :
    EditEntry :=
  { timestamp := if timestamp == 0 then nowTs else timestamp
    previous_room_name := room_name
    previous_picture_urls := old.picture_urls
    previous_tags := old.tags
    previous_description := old.description
    previous_roomtype := old.roomtype
    previous_doc_by_user_id := old.doc_by_user_id
    edited_by_user_id := truthyEditor edited_by_user_id doc_by_user_id }

/-- `document_room` of `room_db_handler.py`.  On an existing room (exact name
match) it appends one history entry and updates the row; the duplicated
`last_updated` assignment in its `UPDATE` statement resolves, per SQLite
semantics, to the rightmost value, i.e. the `timestamp` argument.  On a new
room it inserts with empty history and `NULL` editor. -/
def document_room (nowTs : Int) (db : LocalDb) (room_name : String)
    (picture_urls : List String) (description : String) (doc_by_user_id : Int)
    (tags : List String) (roomtype : String) (timestamp : Int)
    (edited_by_user_id : Option Int) : LocalDb :=
  match lookupExact db room_name with
  | some old =>
    let entry := documentEditEntry nowTs room_name old doc_by_user_id timestamp
      edited_by_user_id
    updateRow db room_name
      { picture_urls := picture_urls
        description := description
        last_updated := timestamp
        doc_by_user_id := old.doc_by_user_id
        edits := old.edits ++ [entry]
        tags := tags
        roomtype := roomtype
        edited_by_user_id := some (truthyEditor edited_by_user_id doc_by_user_id) }
  | none =>
    db ++ [(room_name,
      { picture_urls := picture_urls
        description := description
        last_updated := timestamp
        doc_by_user_id := doc_by_user_id
        edits := []
        tags := tags
        roomtype := roomtype
        edited_by_user_id := none })]

/-- `url.startswith(("http://", "https://"))`. -/
def isValidUrl (u : String) : Bool :=
  pyStartsWith u "http://" || pyStartsWith u "https://"

/-- The URL filter applied by every bucket of `sync_databases`. -/
def validUrls (urls : List String) : List String :=
  urls.filter isValidUrl

/-- The first classification loop of `sync_databases`: for every remote room
in dict order, bucket it as missing locally (no case-insensitive local
match), newer locally, or newer externally; equal timestamps fall through
with no action.  Returns the three buckets in iteration order, carrying the
same data the Python lists carry (`newer_locally` holds the local record). -/
def classifyExt (db : LocalDb) : ExtDb →
    List (String × ExtRoom) × List (String × LocalRoom) × List (String × ExtRoom)
  | [] => ([], [], [])
  | (room_name, ext_room_data) :: rest =>
    let (ml, nl, ne) := classifyExt db rest
    match get_roominfo db room_name with
    | none => ((room_name, ext_room_data) :: ml, nl, ne)
    | some local_room_data =>
      if local_room_data.last_updated > ext_room_data.last_edited then
        (ml, (room_name, local_room_data) :: nl, ne)
      else if ext_room_data.last_edited > local_room_data.last_updated then
        (ml, nl, (room_name, ext_room_data) :: ne)
      else
        (ml, nl, ne)

/-- The second classification loop of `sync_databases`: every local room name
(in row order, as `jsonify_room_db` returns it) that is not a remote key —
exact string membership — and for which `get_roominfo` returns a record is
bucketed as missing externally, carrying the looked-up record. -/
def classifyLocalLoop (db : LocalDb) (ext : ExtDb) :
    List (String × LocalRoom) → List (String × LocalRoom)
  | [] => []
  | (room_name, _) :: rest =>
    let tail := classifyLocalLoop db ext rest
    if ext.any (fun p => p.1 == room_name) then tail
    else
      match get_roominfo db room_name with
      | some local_room_data => (room_name, local_room_data) :: tail
      | none => tail

/-- Python-level error raised by a call, modelled where the reconciliation
task can crash. -/
inductive PyError where
  | typeError (msg : String)
  | attributeError (msg : String)
deriving DecidableEq

/-- Parameter names of `export_room_to_api` as defined in
`src/api/external_api.py` — the module `sync_databases` imports. -/
def export_room_to_api_params : List String :=
  ["room_name", "roomtype", "picture_urls", "description", "doc_by_user_id",
   "tags", "last_edited_by"]

/-- Keyword names used by `sync_databases` (and `research_cmds.py`) when
calling `external_api.export_room_to_api`. -/
def sync_export_call_kwargs : List String :=
  ["room_name", "roomtype", "picture_urls", "description", "doc_by_user_id",
   "tags", "last_edited_by", "timestamp"]

/-- Python keyword-argument binding: the call raises `TypeError` unless every
keyword names a parameter of the callee. -/
def kwargsBindOk (params kwargs : List String) : Bool :=
  kwargs.all (fun k => params.contains k)

/-- The payload `export_room_to_api` posts to the remote `upload-room`
endpoint. -/
structure Upload where
  room_name : String
  images : List String
  description : String
  documented_by : Int
  tags : List String
  roomtype : String
  last_edited_by : Option Int
deriving DecidableEq

/-- A call of `external_api.export_room_to_api` from `sync_databases`.  The
call site passes a `timestamp=` keyword, but the imported function's
signature has no such parameter, so keyword binding fails and the call
raises `TypeError` before the request is sent. -/
def callExportRoomToApi (room_name : String) (roomtype : String)
    (picture_urls : List String) (description : String) (doc_by_user_id : Int)
    (tags : List String) (last_edited_by : Option Int) :
    Except PyError Upload :=
  if kwargsBindOk export_room_to_api_params sync_export_call_kwargs then
    .ok
      { room_name := room_name
        images := picture_urls.take 10
        description := description
        documented_by := doc_by_user_id
        tags := tags
        roomtype := roomtype
        last_edited_by := last_edited_by }
  else
    .error (.typeError "export_room_to_api got an unexpected keyword argument timestamp")

/-- Phase 1 of `sync_databases`: upload each room missing externally, after
filtering its picture URLs; fewer than 4 valid URLs skips the room.  Returns
the uploads sent. -/
def pushMissingExternally :
    List (String × LocalRoom) → Except PyError (List Upload)
  | [] => .ok []
  | (room_name, local_data) :: rest =>
    let valid_urls := validUrls local_data.picture_urls
    if valid_urls.length < 4 then pushMissingExternally rest
    else do
      let u ← callExportRoomToApi room_name local_data.roomtype valid_urls
        local_data.description local_data.doc_by_user_id local_data.tags
        local_data.edited_by_user_id
      let us ← pushMissingExternally rest
      .ok (u :: us)

/-- The body of the missing-locally loop of `sync_databases` for one room:
filter the remote image list, look up any pre-existing local record to
preserve its edit history, and `replace_doc` the remote payload in. -/
def pullRoomFromExt (db : LocalDb) (room_name : String) (ext_data : ExtRoom) :
    LocalDb :=
  let valid_urls := validUrls ext_data.images
  let existing_edits := (get_roominfo db room_name).map (fun r => r.edits)
  replace_doc db room_name valid_urls ext_data.description
    ext_data.documented_by ext_data.tags ext_data.roomtype
    ext_data.last_edited ext_data.last_edited_by existing_edits

/-- Phase 2 of `sync_databases`: pull every room missing locally, in bucket
order, threading the store. -/
def pullMissingLocally (db : LocalDb) :
    List (String × ExtRoom) → LocalDb
  | [] => db
  | (room_name, ext_data) :: rest =>
    pullMissingLocally (pullRoomFromExt db room_name ext_data) rest

/-- Phase 3 of `sync_databases`: for each room newer locally, push the local
record when it has at least 4 valid URLs (the call raises `TypeError`, see
`callExportRoomToApi`); otherwise fall back to pulling the remote version via
`replace_doc` with no explicit history (preserving the existing one). -/
def newerLocallyPhase (ext : ExtDb) (db : LocalDb) :
    List (String × LocalRoom) → Except PyError (LocalDb × List Upload)
  | [] => .ok (db, [])
  | (room_name, local_data) :: rest =>
    let valid_urls := validUrls local_data.picture_urls
    if valid_urls.length < 4 then
      match ext.find? (fun p => p.1 == room_name) with
      | some (_, ext_room_data) =>
        let db' := replace_doc db room_name (validUrls ext_room_data.images)
          ext_room_data.description ext_room_data.documented_by
          ext_room_data.tags ext_room_data.roomtype ext_room_data.last_edited
          ext_room_data.last_edited_by none
        newerLocallyPhase ext db' rest
      | none => newerLocallyPhase ext db rest
    else do
      let u ← callExportRoomToApi room_name local_data.roomtype valid_urls
        local_data.description local_data.doc_by_user_id local_data.tags
        local_data.edited_by_user_id
      let (db', us) ← newerLocallyPhase ext db rest
      .ok (db', u :: us)

/-- Phase 4 of `sync_databases`: for each room newer externally, write the
remote payload into the local store through `document_room` (which appends an
edit-history entry). -/
def newerExternallyPhase (nowTs : Int) (db : LocalDb) :
    List (String × ExtRoom) → LocalDb
  | [] => db
  | (room_name, ext_data) :: rest =>
    newerExternallyPhase nowTs
      (document_room nowTs db room_name (validUrls ext_data.images)
        ext_data.description ext_data.documented_by ext_data.tags
        ext_data.roomtype ext_data.last_edited ext_data.last_edited_by)
      rest

/-- Result of one reconciliation run: the local store afterwards and the
uploads sent to the remote. -/
structure SyncResult where
  db : LocalDb
  uploads : List Upload
deriving DecidableEq

/-- One run of `sync_databases`.  `exportOk` is the `success` flag of the
bulk `export_database_api` call; a non-success export aborts the run before
anything is read or written.  Otherwise the two classification loops run
against the pre-state, then the four apply phases run in program order. -/
def sync_databases (nowTs : Int) (exportOk : Bool) (ext : ExtDb)
    (db : LocalDb) : Except PyError SyncResult :=
  if !exportOk then .ok ⟨db, []⟩
  else
    let (ml, nl, ne) := classifyExt db ext
    let me := classifyLocalLoop db ext db
    do
      let ups1 ← pushMissingExternally me
      let db1 := pullMissingLocally db ml
      let (db2, ups2) ← newerLocallyPhase ext db1 nl
      let db3 := newerExternallyPhase nowTs db2 ne
      .ok ⟨db3, ups1 ++ ups2⟩

/-- A snapshot file of one store in the snapshots directory: its creation
(mtime) timestamp and its content bytes (abstracted as a number). -/
structure Snap where
  mtime : Int
  content : Nat
deriving DecidableEq

/-- Insertion step of sorting snapshots by mtime, descending
(`snapshots.sort(key=..., reverse=True)` in `restore_from_snapshot`). -/
def insertByMtimeDesc (s : Snap) : List Snap → List Snap
  | [] => [s]
  | t :: ts =>
    if s.mtime > t.mtime then s :: t :: ts else t :: insertByMtimeDesc s ts

/-- Snapshots sorted newest-first by mtime, the order
`restore_from_snapshot` restores in. -/
def sortNewestFirst : List Snap → List Snap
  | [] => []
  | s :: rest => insertByMtimeDesc s (sortNewestFirst rest)

/-- `restore_from_replica`: copy the replica's bytes over the live store
file.  When the replica cannot be read, the copy fails (returns `False`)
before the destination is opened, leaving the live file untouched; a
successful copy leaves the live file openable with the replica's content.
The live store file is `none` when it cannot be opened. -/
def restore_from_replica (replica : Option Nat) (live : Option Nat) :
    Option Nat × Bool :=
  match replica with
  | some r => (some r, true)
  | none => (live, false)

/-- `restore_from_snapshot`: list the store's snapshots, sort newest-first,
and copy the snapshot at `index` over the live file; an index past the end
returns `False` without raising and leaves the live file untouched; a
successful copy leaves the live file openable. -/
def restore_from_snapshot (files : List Snap) (index : Nat)
    (live : Option Nat) : Option Nat × Bool :=
  match (sortNewestFirst files).get? index with
  | some s => (some s.content, true)
  | none => (live, false)

/-- A file in the snapshots directory during the retention sweep. -/
structure SnapFile where
  name : String
  mtime : Int
deriving DecidableEq

/-- The retention sweep at the bottom of `backup_manager`'s tick: every file
whose age (`time_now - getmtime`) meets or exceeds the max age is removed;
a deletion error (`delOk` false) is logged and the sweep continues with the
remaining files.  Returns the files remaining and the names deleted. -/
def prune_sweep (time_now max_age : Int) (delOk : String → Bool) :
    List SnapFile → List SnapFile × List String
  | [] => ([], [])
  | f :: rest =>
    let (rem, deleted) := prune_sweep time_now max_age delOk rest
    if time_now - f.mtime ≥ max_age then
      if delOk f.name then (rem, f.name :: deleted)
      else (f :: rem, deleted)
    else (f :: rem, deleted)

/-- Error raised by `sqlite3.connect`. -/
inductive SqliteError where
  | operationalError
deriving DecidableEq

/-- `connect_db` of `database_manager.py`, called with `read_only=True`: when
the file cannot be opened, `sqlite3.connect(..., mode=ro)` raises an
`OperationalError` (a `DatabaseError`); when it can, the function body
assigns the connection to a local variable but has no return statement, so
the caller receives Python `None` (`Option.none` here) instead of the
connection (`some ()`). -/
def connect_db (canOpen : Bool) : Except SqliteError (Option Unit) :=
  if canOpen then .ok none else .error .operationalError

/-- `db_integrity_check`: runs `PRAGMA integrity_check(1)` on the connection
`connect_db` returns, catching only `sqlite3.DatabaseError` (returning
`False`).  With `connect_db` returning `None`, the `conn.cursor()` attribute
access raises an uncaught `AttributeError` whenever the file is openable;
`integrityOk` is the pragma verdict the check would report if it had a
connection. -/
def db_integrity_check (canOpen : Bool) (integrityOk : Bool) :
    Except PyError Bool :=
  match connect_db canOpen with
  | .error _ => .ok false
  | .ok none => .error (.attributeError "NoneType object has no attribute cursor")
  | .ok (some _) => .ok integrityOk

/-- The integrity re-check the recovery branch of `backup_manager` runs on
the live store file: `db_integrity_check` applied to the file's current
state.  After any successful restore the file is openable, so the check
raises `AttributeError` (see `connect_db`); `intact` is the pragma verdict
the check would report if `connect_db` returned the connection. -/
def recheck_live (intact : Nat → Bool) (live : Option Nat) :
    Except PyError Bool :=
  db_integrity_check live.isSome
    (match live with
     | some c => intact c
     | none => false)

/-- The snapshot loop of `backup_manager`'s recovery branch
(`for i in range(3): if restore_from_snapshot(db_file, i) and
db_integrity_check(db_file): break`): a failed restore short-circuits the
`and`, skipping the re-check and moving to the next index; a successful
restore runs the re-check, whose exception propagates and aborts the loop.
Returns the final live state and the snapshot indices attempted. -/
def trySnapshotIndices (intact : Nat → Bool) (files : List Snap)
    (live : Option Nat) : List Nat → Except PyError (Option Nat × List Nat)
  | [] => .ok (live, [])
  | i :: rest =>
    let (live', ok) := restore_from_snapshot files i live
    if ok then
      match recheck_live intact live' with
      | .error e => .error e
      | .ok true => .ok (live', [i])
      | .ok false =>
        match trySnapshotIndices intact files live' rest with
        | .error e => .error e
        | .ok (liveEnd, is) => .ok (liveEnd, i :: is)
    else
      match trySnapshotIndices intact files live' rest with
      | .error e => .error e
      | .ok (liveEnd, is) => .ok (liveEnd, i :: is)

/-- The recovery sequence `backup_manager` runs for one store that failed
its integrity check (`replica_success = restore_from_replica(db_file)`,
then `if replica_success and db_integrity_check(db_file): continue`, else
the snapshot loop): a failed replica restore short-circuits the `and` and
falls through to the snapshot loop; a successful one runs the re-check,
whose exception propagates. -/
def recover_store (intact : Nat → Bool) (replica : Option Nat)
    (files : List Snap) (live : Option Nat) :
    Except PyError (Option Nat × List Nat) :=
  let (live1, repOk) := restore_from_replica replica live
  if repOk then
    match recheck_live intact live1 with
    | .error e => .error e
    | .ok true => .ok (live1, [])
    | .ok false => trySnapshotIndices intact files live1 [0, 1, 2]
  else trySnapshotIndices intact files live1 [0, 1, 2]

instance {ε α : Type} [DecidableEq ε] [DecidableEq α] :
    DecidableEq (Except ε α) := fun x y =>
  match x, y with
  | .ok a, .ok b =>
    match decEq a b with
    | isTrue h => isTrue (by rw [h])
    | isFalse h => isFalse (by intro hc; cases hc; exact h rfl)
  | .ok _, .error _ => isFalse (by intro hc; cases hc)
  | .error _, .ok _ => isFalse (by intro hc; cases hc)
  | .error e, .error f =>
    match decEq e f with
    | isTrue h => isTrue (by rw [h])
    | isFalse h => isFalse (by intro hc; cases hc; exact h rfl)

theorem lookupExact_cons (m : String) (r : LocalRoom) (db : LocalDb) (n : String) :
    lookupExact ((m, r) :: db) n = if m = n then some r else lookupExact db n := by
  by_cases h : m = n
  · subst h
    simp [lookupExact, List.find?_cons]
  · have hb : (m == n) = false := by simpa using h
    simp [lookupExact, List.find?_cons, hb, h]

theorem get_roominfo_cons (m : String) (r : LocalRoom) (db : LocalDb) (n : String) :
    get_roominfo ((m, r) :: db) n =
      if sqliteLower m = sqliteLower n then some r else get_roominfo db n := by
  by_cases h : sqliteLower m = sqliteLower n
  · simp [get_roominfo, List.find?_cons, h]
  · have hb : (sqliteLower m == sqliteLower n) = false := by simpa using h
    simp [get_roominfo, List.find?_cons, hb, h]

theorem updateRow_cons (m : String) (r0 : LocalRoom) (db : LocalDb) (n : String)
    (r : LocalRoom) :
    updateRow ((m, r0) :: db) n r =
      (if m = n then (m, r) else (m, r0)) :: updateRow db n r := by
  by_cases h : m = n
  · subst h
    simp [updateRow]
  · have hb : (m == n) = false := by simpa using h
    simp [updateRow, hb, h]

theorem lookupExact_updateRow_self (db : LocalDb) (n : String) (r : LocalRoom) :
    lookupExact (updateRow db n r) n = (lookupExact db n).map (fun _ => r) := by
  induction db with
  | nil => rfl
  | cons p db ih =>
    obtain ⟨m, r0⟩ := p
    rw [updateRow_cons]
    by_cases h : m = n
    · rw [if_pos h, lookupExact_cons, lookupExact_cons, if_pos h, if_pos h]
      rfl
    · rw [if_neg h, lookupExact_cons, lookupExact_cons, if_neg h, if_neg h]
      exact ih

theorem lookupExact_append_of_none (db l : LocalDb) (n : String)
    (h : lookupExact db n = none) :
    lookupExact (db ++ l) n = lookupExact l n := by
  induction db with
  | nil => rfl
  | cons p db ih =>
    obtain ⟨m, r0⟩ := p
    rw [List.cons_append]
    rw [lookupExact_cons] at h ⊢
    by_cases hm : m = n
    · rw [if_pos hm] at h
      cases h
    · rw [if_neg hm] at h ⊢
      exact ih h

theorem get_roominfo_isSome_of_lookupExact (db : LocalDb) (n : String)
    (h : (lookupExact db n).isSome) : (get_roominfo db n).isSome := by
  induction db with
  | nil => simp [lookupExact] at h
  | cons p db ih =>
    obtain ⟨m, r0⟩ := p
    rw [get_roominfo_cons]
    by_cases hl : sqliteLower m = sqliteLower n
    · rw [if_pos hl]
      rfl
    · rw [if_neg hl]
      rw [lookupExact_cons] at h
      by_cases hm : m = n
      · exact absurd (by rw [hm]) hl
      · rw [if_neg hm] at h
        exact ih h

theorem replace_doc_lookup (db : LocalDb) (n : String) (urls : List String)
    (desc : String) (docBy : Int) (tags : List String) (rt : String) (ts : Int)
    (editor : Option Int) (edits : Option (List EditEntry)) :
    lookupExact (replace_doc db n urls desc docBy tags rt ts editor edits) n =
      some
        { picture_urls := urls
          description := desc
          last_updated := ts
          doc_by_user_id := docBy
          edits :=
            match edits with
            | some e => e
            | none =>
              match lookupExact db n with
              | some r => r.edits
              | none => []
          tags := tags
          roomtype := rt
          edited_by_user_id := editor } := by
  unfold replace_doc
  cases hx : lookupExact db n with
  | some x =>
    simp only [hx]
    rw [lookupExact_updateRow_self, hx]
    rfl
  | none =>
    simp only [hx]
    rw [lookupExact_append_of_none _ _ _ hx, lookupExact_cons, if_pos rfl]

/-- C3: pulling a remote entity that was classified missing locally writes
the remote payload (with its image list filtered to valid HTTP(S) URLs) into
the local store under that name, and the edit history stored with it is
exactly the pre-existing local history for that name when one exists — so
history never shrinks — and empty when none exists. -/
theorem pull_preserves_history (db : LocalDb) (room_name : String)
    (ext_data : ExtRoom) :
    lookupExact (pullRoomFromExt db room_name ext_data) room_name =
      some
        { picture_urls := validUrls ext_data.images
          description := ext_data.description
          last_updated := ext_data.last_edited
          doc_by_user_id := ext_data.documented_by
          edits :=
            match get_roominfo db room_name with
            | some old => old.edits
            | none => []
          tags := ext_data.tags
          roomtype := ext_data.roomtype
          edited_by_user_id := ext_data.last_edited_by } := by
  unfold pullRoomFromExt
  rw [replace_doc_lookup]
  cases hg : get_roominfo db room_name with
  | some old => rfl
  | none =>
    have hx : lookupExact db room_name = none := by
      cases hx : lookupExact db room_name with
      | none => rfl
      | some x =>
        have hs := get_roominfo_isSome_of_lookupExact db room_name
          (by rw [hx]; rfl)
        rw [hg] at hs
        simp at hs
    simp only [hx]
    rfl

theorem classifyExt_cons (db : LocalDb) (m : String) (e0 : ExtRoom)
    (rest : ExtDb) :
    classifyExt db ((m, e0) :: rest) =
      match get_roominfo db m with
      | none =>
        ((m, e0) :: (classifyExt db rest).1, (classifyExt db rest).2.1,
          (classifyExt db rest).2.2)
      | some l =>
        if l.last_updated > e0.last_edited then
          ((classifyExt db rest).1, (m, l) :: (classifyExt db rest).2.1,
            (classifyExt db rest).2.2)
        else if e0.last_edited > l.last_updated then
          ((classifyExt db rest).1, (classifyExt db rest).2.1,
            (m, e0) :: (classifyExt db rest).2.2)
        else classifyExt db rest := rfl

theorem classifyLocalLoop_cons (db : LocalDb) (ext : ExtDb) (m : String)
    (r0 : LocalRoom) (rest : List (String × LocalRoom)) :
    classifyLocalLoop db ext ((m, r0) :: rest) =
      if ext.any (fun p => p.1 == m) then classifyLocalLoop db ext rest
      else
        match get_roominfo db m with
        | some l => (m, l) :: classifyLocalLoop db ext rest
        | none => classifyLocalLoop db ext rest := rfl

theorem mem_classifyExt_ml (db : LocalDb) (ext : ExtDb) (n : String)
    (e : ExtRoom) :
    (n, e) ∈ (classifyExt db ext).1 ↔
      (n, e) ∈ ext ∧ get_roominfo db n = none := by
  induction ext with
  | nil => simp [classifyExt]
  | cons p rest ih =>
    obtain ⟨m, e0⟩ := p
    cases hg : get_roominfo db m with
    | none =>
      have hml : (classifyExt db ((m, e0) :: rest)).1 =
          (m, e0) :: (classifyExt db rest).1 := by
        rw [classifyExt_cons, hg]
      rw [hml]
      simp only [List.mem_cons, ih]
      constructor
      · rintro (heq | ⟨h1, h2⟩)
        · obtain ⟨rfl, rfl⟩ := Prod.mk.injEq .. ▸ heq
          exact ⟨Or.inl rfl, hg⟩
        · exact ⟨Or.inr h1, h2⟩
      · rintro ⟨heq | h1, h2⟩
        · exact Or.inl heq
        · exact Or.inr ⟨h1, h2⟩
    | some lm =>
      have hml : (classifyExt db ((m, e0) :: rest)).1 = (classifyExt db rest).1 := by
        rw [classifyExt_cons, hg]
        by_cases hc1 : lm.last_updated > e0.last_edited
        · simp only [if_pos hc1]
        · by_cases hc2 : e0.last_edited > lm.last_updated
          · simp only [if_neg hc1, if_pos hc2]
          · simp only [if_neg hc1, if_neg hc2]
      rw [hml, ih]
      simp only [List.mem_cons]
      constructor
      · rintro ⟨h1, h2⟩
        exact ⟨Or.inr h1, h2⟩
      · rintro ⟨heq | h1, h2⟩
        · obtain ⟨rfl, rfl⟩ := Prod.mk.injEq .. ▸ heq
          rw [hg] at h2
          cases h2
        · exact ⟨h1, h2⟩

theorem mem_classifyExt_nl (db : LocalDb) (ext : ExtDb) (n : String)
    (l : LocalRoom) :
    (n, l) ∈ (classifyExt db ext).2.1 ↔
      ∃ e, (n, e) ∈ ext ∧ get_roominfo db n = some l ∧
        l.last_updated > e.last_edited := by
  induction ext with
  | nil => simp [classifyExt]
  | cons p rest ih =>
    obtain ⟨m, e0⟩ := p
    cases hg : get_roominfo db m with
    | none =>
      have hnl : (classifyExt db ((m, e0) :: rest)).2.1 =
          (classifyExt db rest).2.1 := by
        rw [classifyExt_cons, hg]
      rw [hnl, ih]
      simp only [List.mem_cons]
      constructor
      · rintro ⟨e, h1, h2, h3⟩
        exact ⟨e, Or.inr h1, h2, h3⟩
      · rintro ⟨e, heq | h1, h2, h3⟩
        · obtain ⟨rfl, rfl⟩ := Prod.mk.injEq .. ▸ heq
          rw [hg] at h2
          cases h2
        · exact ⟨e, h1, h2, h3⟩
    | some lm =>
      by_cases hc1 : lm.last_updated > e0.last_edited
      · have hnl : (classifyExt db ((m, e0) :: rest)).2.1 =
            (m, lm) :: (classifyExt db rest).2.1 := by
          rw [classifyExt_cons, hg]
          simp only [if_pos hc1]
        rw [hnl]
        simp only [List.mem_cons, ih]
        constructor
        · rintro (heq | ⟨e, h1, h2, h3⟩)
          · obtain ⟨rfl, rfl⟩ := Prod.mk.injEq .. ▸ heq
            exact ⟨e0, Or.inl rfl, hg, hc1⟩
          · exact ⟨e, Or.inr h1, h2, h3⟩
        · rintro ⟨e, heq | h1, h2, h3⟩
          · obtain ⟨rfl, rfl⟩ := Prod.mk.injEq .. ▸ heq
            rw [hg] at h2
            obtain rfl := Option.some.injEq .. ▸ h2
            exact Or.inl rfl
          · exact Or.inr ⟨e, h1, h2, h3⟩
      · have hnl : (classifyExt db ((m, e0) :: rest)).2.1 =
            (classifyExt db rest).2.1 := by
          rw [classifyExt_cons, hg]
          by_cases hc2 : e0.last_edited > lm.last_updated
          · simp only [if_neg hc1, if_pos hc2]
          · simp only [if_neg hc1, if_neg hc2]
        rw [hnl, ih]
        simp only [List.mem_cons]
        constructor
        · rintro ⟨e, h1, h2, h3⟩
          exact ⟨e, Or.inr h1, h2, h3⟩
        · rintro ⟨e, heq | h1, h2, h3⟩
          · obtain ⟨rfl, rfl⟩ := Prod.mk.injEq .. ▸ heq
            rw [hg] at h2
            obtain rfl := Option.some.injEq .. ▸ h2
            exact absurd h3 hc1
          · exact ⟨e, h1, h2, h3⟩

theorem mem_classifyExt_ne (db : LocalDb) (ext : ExtDb) (n : String)
    (e : ExtRoom) :
    (n, e) ∈ (classifyExt db ext).2.2 ↔
      (n, e) ∈ ext ∧ ∃ l, get_roominfo db n = some l ∧
        e.last_edited > l.last_updated := by
  induction ext with
  | nil => simp [classifyExt]
  | cons p rest ih =>
    obtain ⟨m, e0⟩ := p
    cases hg : get_roominfo db m with
    | none =>
      have hne : (classifyExt db ((m, e0) :: rest)).2.2 =
          (classifyExt db rest).2.2 := by
        rw [classifyExt_cons, hg]
      rw [hne, ih]
      simp only [List.mem_cons]
      constructor
      · rintro ⟨h1, h2⟩
        exact ⟨Or.inr h1, h2⟩
      · rintro ⟨heq | h1, l, h2, h3⟩
        · obtain ⟨rfl, rfl⟩ := Prod.mk.injEq .. ▸ heq
          rw [hg] at h2
          cases h2
        · exact ⟨h1, l, h2, h3⟩
    | some lm =>
      by_cases hc1 : lm.last_updated > e0.last_edited
      · have hne : (classifyExt db ((m, e0) :: rest)).2.2 =
            (classifyExt db rest).2.2 := by
          rw [classifyExt_cons, hg]
          simp only [if_pos hc1]
        rw [hne, ih]
        simp only [List.mem_cons]
        constructor
        · rintro ⟨h1, h2⟩
          exact ⟨Or.inr h1, h2⟩
        · rintro ⟨heq | h1, l, h2, h3⟩
          · obtain ⟨rfl, rfl⟩ := Prod.mk.injEq .. ▸ heq
            rw [hg] at h2
            obtain rfl := Option.some.injEq .. ▸ h2
            exact absurd hc1 (not_lt_of_gt h3)
          · exact ⟨h1, l, h2, h3⟩
      · by_cases hc2 : e0.last_edited > lm.last_updated
        · have hne : (classifyExt db ((m, e0) :: rest)).2.2 =
              (m, e0) :: (classifyExt db rest).2.2 := by
            rw [classifyExt_cons, hg]
            simp only [if_neg hc1, if_pos hc2]
          rw [hne]
          simp only [List.mem_cons, ih]
          constructor
          · rintro (heq | ⟨h1, h2⟩)
            · obtain ⟨rfl, rfl⟩ := Prod.mk.injEq .. ▸ heq
              exact ⟨Or.inl rfl, lm, hg, hc2⟩
            · exact ⟨Or.inr h1, h2⟩
          · rintro ⟨heq | h1, l, h2, h3⟩
            · obtain ⟨rfl, rfl⟩ := Prod.mk.injEq .. ▸ heq
              exact Or.inl rfl
            · exact Or.inr ⟨h1, l, h2, h3⟩
        · have hne : (classifyExt db ((m, e0) :: rest)).2.2 =
              (classifyExt db rest).2.2 := by
            rw [classifyExt_cons, hg]
            simp only [if_neg hc1, if_neg hc2]
          rw [hne, ih]
          simp only [List.mem_cons]
          constructor
          · rintro ⟨h1, h2⟩
            exact ⟨Or.inr h1, h2⟩
          · rintro ⟨heq | h1, l, h2, h3⟩
            · obtain ⟨rfl, rfl⟩ := Prod.mk.injEq .. ▸ heq
              rw [hg] at h2
              obtain rfl := Option.some.injEq .. ▸ h2
              exact absurd h3 hc2
            · exact ⟨h1, l, h2, h3⟩

theorem mem_classifyLocalLoop (db : LocalDb) (ext : ExtDb)
    (rows : List (String × LocalRoom)) (n : String) (l : LocalRoom) :
    (n, l) ∈ classifyLocalLoop db ext rows ↔
      n ∈ rows.map Prod.fst ∧ ext.any (fun p => p.1 == n) = false ∧
        get_roominfo db n = some l := by
  induction rows with
  | nil => simp [classifyLocalLoop]
  | cons row rest ih =>
    obtain ⟨m, r0⟩ := row
    rw [classifyLocalLoop_cons]
    by_cases hm : ext.any (fun p => p.1 == m) = true
    · rw [if_pos hm, ih]
      simp only [List.map_cons, List.mem_cons]
      constructor
      · rintro ⟨h1, h2, h3⟩
        exact ⟨Or.inr h1, h2, h3⟩
      · rintro ⟨rfl | h1, h2, h3⟩
        · rw [h2] at hm
          cases hm
        · exact ⟨h1, h2, h3⟩
    · have hm' : ext.any (fun p => p.1 == m) = false := by
        cases hb : ext.any (fun p => p.1 == m) with
        | false => rfl
        | true => exact absurd hb hm
      rw [if_neg hm]
      cases hg : get_roominfo db m with
      | some lm =>
        simp only [List.mem_cons, ih, List.map_cons]
        constructor
        · rintro (heq | ⟨h1, h2, h3⟩)
          · obtain ⟨rfl, rfl⟩ := Prod.mk.injEq .. ▸ heq
            exact ⟨Or.inl rfl, hm', hg⟩
          · exact ⟨Or.inr h1, h2, h3⟩
        · rintro ⟨rfl | h1, h2, h3⟩
          · rw [hg] at h3
            obtain rfl := Option.some.injEq .. ▸ h3
            exact Or.inl rfl
          · exact Or.inr ⟨h1, h2, h3⟩
      | none =>
        rw [ih]
        simp only [List.map_cons, List.mem_cons]
        constructor
        · rintro ⟨h1, h2, h3⟩
          exact ⟨Or.inr h1, h2, h3⟩
        · rintro ⟨rfl | h1, h2, h3⟩
          · rw [hg] at h3
            cases h3
          · exact ⟨h1, h2, h3⟩

theorem get_roominfo_isSome_of_mem_names (db : LocalDb) (n : String)
    (h : n ∈ db.map Prod.fst) : (get_roominfo db n).isSome := by
  apply get_roominfo_isSome_of_lookupExact
  obtain ⟨p, hp, hpn⟩ := List.mem_map.mp h
  unfold lookupExact
  rw [Option.isSome_map']
  rw [List.find?_isSome]
  exact ⟨p, hp, by rw [hpn]; simp⟩

theorem ext_key_unique (ext : ExtDb) (he : (ext.map Prod.fst).Nodup)
    (n : String) (e1 e2 : ExtRoom) (h1 : (n, e1) ∈ ext) (h2 : (n, e2) ∈ ext) :
    e1 = e2 := by
  induction ext with
  | nil => cases h1
  | cons p rest ih =>
    obtain ⟨m, e0⟩ := p
    rw [List.map_cons] at he
    have hm := List.nodup_cons.mp he
    rcases List.mem_cons.mp h1 with heq1 | h1'
    · obtain ⟨rfl, rfl⟩ := Prod.mk.injEq .. ▸ heq1
      rcases List.mem_cons.mp h2 with heq2 | h2'
      · obtain ⟨-, hee⟩ := Prod.mk.injEq .. ▸ heq2
        exact hee.symm
      · exact absurd (List.mem_map.mpr ⟨(n, e2), h2', rfl⟩) hm.1
    · rcases List.mem_cons.mp h2 with heq2 | h2'
      · obtain ⟨rfl, rfl⟩ := Prod.mk.injEq .. ▸ heq2
        exact absurd (List.mem_map.mpr ⟨(n, e1), h1', rfl⟩) hm.1
      · exact ih hm.2 h1' h2'

theorem ext_any_eq_false_iff (ext : ExtDb) (n : String) :
    ext.any (fun p => p.1 == n) = false ↔ n ∉ ext.map Prod.fst := by
  constructor
  · intro hany hn
    obtain ⟨p, hp, hpn⟩ := List.mem_map.mp hn
    have : ext.any (fun p => p.1 == n) = true :=
      List.any_eq_true.mpr ⟨p, hp, by rw [hpn]; simp⟩
    rw [this] at hany
    cases hany
  · intro hn
    cases hany : ext.any (fun p => p.1 == n) with
    | false => rfl
    | true =>
      obtain ⟨p, hp, hpn⟩ := List.any_eq_true.mp hany
      have hpn' : p.1 = n := by simpa using hpn
      exact absurd (List.mem_map.mpr ⟨p, hp, hpn'⟩) hn

/-- Local record used in the C2 case-collision counterexample. -/
def c2Local : LocalRoom :=
  { picture_urls := []
    description := ""
    last_updated := 7
    doc_by_user_id := 1
    edits := []
    tags := []
    roomtype := ""
    edited_by_user_id := none }

/-- Remote record used in the C2 case-collision counterexample: same
timestamp as `c2Local`. -/
def c2Ext : ExtRoom :=
  { images := []
    description := ""
    tags := []
    roomtype := ""
    documented_by := 1
    last_edited := 7
    last_edited_by := none }

/-- C2 counterexample: remote name `rooma` is present only remotely (the
local store has only the differently-cased `RoomA`), so the claim requires it
to be classified `missing_locally`.  Because the local lookup is
case-insensitive, it is instead compared against `RoomA` (equal timestamps,
hence treated as in sync) and lands in no bucket, while `RoomA` itself is
classified missing-externally. -/
theorem classify_case_collision_counterexample :
    ("rooma" ∈ ([("rooma", c2Ext)] : ExtDb).map Prod.fst ∧
      "rooma" ∉ ([("RoomA", c2Local)] : LocalDb).map Prod.fst) ∧
    (classifyExt [("RoomA", c2Local)] [("rooma", c2Ext)]).1 = [] ∧
    (classifyExt [("RoomA", c2Local)] [("rooma", c2Ext)]).2.1 = [] ∧
    (classifyExt [("RoomA", c2Local)] [("rooma", c2Ext)]).2.2 = [] ∧
    classifyLocalLoop [("RoomA", c2Local)] [("rooma", c2Ext)]
      [("RoomA", c2Local)] = [("RoomA", c2Local)] := by
  decide

/-- C2 amended: per-name characterisation of one run's classification.  A
remote name goes to `missing_locally` exactly when the case-insensitive
local lookup finds nothing (not merely when the exact name is absent
locally); a remote name with a case-insensitive match is compared against
that match and goes to newer-locally / newer-externally on a strict
timestamp inequality and to no bucket (in sync) on equality; a local name
goes to missing-externally exactly when it is not an exact remote key.  The
four buckets are pairwise disjoint, so no name is classified twice. -/
theorem classify_dispositions (db : LocalDb) (ext : ExtDb) (n : String)
    (he : (ext.map Prod.fst).Nodup) :
    (n ∈ (classifyExt db ext).1.map Prod.fst ↔
      n ∈ ext.map Prod.fst ∧ get_roominfo db n = none) ∧
    (n ∈ (classifyExt db ext).2.1.map Prod.fst ↔
      ∃ e l, (n, e) ∈ ext ∧ get_roominfo db n = some l ∧
        l.last_updated > e.last_edited) ∧
    (n ∈ (classifyExt db ext).2.2.map Prod.fst ↔
      ∃ e l, (n, e) ∈ ext ∧ get_roominfo db n = some l ∧
        e.last_edited > l.last_updated) ∧
    (n ∈ (classifyLocalLoop db ext db).map Prod.fst ↔
      n ∈ db.map Prod.fst ∧ n ∉ ext.map Prod.fst) ∧
    ¬ (n ∈ (classifyExt db ext).1.map Prod.fst ∧
       n ∈ (classifyExt db ext).2.1.map Prod.fst) ∧
    ¬ (n ∈ (classifyExt db ext).1.map Prod.fst ∧
       n ∈ (classifyExt db ext).2.2.map Prod.fst) ∧
    ¬ (n ∈ (classifyExt db ext).2.1.map Prod.fst ∧
       n ∈ (classifyExt db ext).2.2.map Prod.fst) ∧
    ¬ (n ∈ (classifyLocalLoop db ext db).map Prod.fst ∧
       n ∈ ext.map Prod.fst) := by
  have hml : n ∈ (classifyExt db ext).1.map Prod.fst ↔
      n ∈ ext.map Prod.fst ∧ get_roominfo db n = none := by
    constructor
    · intro hmem
      obtain ⟨p, hp, hpn⟩ := List.mem_map.mp hmem
      subst hpn
      obtain ⟨hin, hnone⟩ := (mem_classifyExt_ml db ext p.1 p.2).mp hp
      exact ⟨List.mem_map.mpr ⟨p, hin, rfl⟩, hnone⟩
    · rintro ⟨hn, hnone⟩
      obtain ⟨p, hp, hpn⟩ := List.mem_map.mp hn
      subst hpn
      exact List.mem_map.mpr
        ⟨(p.1, p.2), (mem_classifyExt_ml db ext p.1 p.2).mpr ⟨hp, hnone⟩, rfl⟩
  have hnl : n ∈ (classifyExt db ext).2.1.map Prod.fst ↔
      ∃ e l, (n, e) ∈ ext ∧ get_roominfo db n = some l ∧
        l.last_updated > e.last_edited := by
    constructor
    · intro hmem
      obtain ⟨p, hp, hpn⟩ := List.mem_map.mp hmem
      subst hpn
      obtain ⟨e, hin, hsome, hgt⟩ := (mem_classifyExt_nl db ext p.1 p.2).mp hp
      exact ⟨e, p.2, hin, hsome, hgt⟩
    · rintro ⟨e, l, hin, hsome, hgt⟩
      exact List.mem_map.mpr
        ⟨(n, l), (mem_classifyExt_nl db ext n l).mpr ⟨e, hin, hsome, hgt⟩, rfl⟩
  have hne : n ∈ (classifyExt db ext).2.2.map Prod.fst ↔
      ∃ e l, (n, e) ∈ ext ∧ get_roominfo db n = some l ∧
        e.last_edited > l.last_updated := by
    constructor
    · intro hmem
      obtain ⟨p, hp, hpn⟩ := List.mem_map.mp hmem
      subst hpn
      obtain ⟨hin, l, hsome, hgt⟩ := (mem_classifyExt_ne db ext p.1 p.2).mp hp
      exact ⟨p.2, l, hin, hsome, hgt⟩
    · rintro ⟨e, l, hin, hsome, hgt⟩
      exact List.mem_map.mpr
        ⟨(n, e), (mem_classifyExt_ne db ext n e).mpr ⟨hin, l, hsome, hgt⟩, rfl⟩
  have hme : n ∈ (classifyLocalLoop db ext db).map Prod.fst ↔
      n ∈ db.map Prod.fst ∧ n ∉ ext.map Prod.fst := by
    constructor
    · intro hmem
      obtain ⟨p, hp, hpn⟩ := List.mem_map.mp hmem
      subst hpn
      obtain ⟨hrows, hany, _⟩ := (mem_classifyLocalLoop db ext db p.1 p.2).mp hp
      exact ⟨hrows, (ext_any_eq_false_iff ext p.1).mp hany⟩
    · rintro ⟨hn, hnot⟩
      have hsome := get_roominfo_isSome_of_mem_names db n hn
      obtain ⟨l, hl⟩ := Option.isSome_iff_exists.mp hsome
      exact List.mem_map.mpr
        ⟨(n, l), (mem_classifyLocalLoop db ext db n l).mpr
          ⟨hn, (ext_any_eq_false_iff ext n).mpr hnot, hl⟩, rfl⟩
  refine ⟨hml, hnl, hne, hme, ?_, ?_, ?_, ?_⟩
  · rintro ⟨h1, h2⟩
    obtain ⟨-, hnone⟩ := hml.mp h1
    obtain ⟨e, l, -, hsome, -⟩ := hnl.mp h2
    rw [hnone] at hsome
    cases hsome
  · rintro ⟨h1, h2⟩
    obtain ⟨-, hnone⟩ := hml.mp h1
    obtain ⟨e, l, -, hsome, -⟩ := hne.mp h2
    rw [hnone] at hsome
    cases hsome
  · rintro ⟨h1, h2⟩
    obtain ⟨e1, l1, hin1, hs1, hgt1⟩ := hnl.mp h1
    obtain ⟨e2, l2, hin2, hs2, hgt2⟩ := hne.mp h2
    obtain rfl := Option.some.injEq .. ▸ (hs1.symm.trans hs2)
    obtain rfl := ext_key_unique ext he n e1 e2 hin1 hin2
    exact absurd hgt2 (not_lt_of_gt hgt1)
  · rintro ⟨h1, h2⟩
    exact absurd h2 (hme.mp h1).2

/-- C2 witness: against an empty local store, the single remote name `A` is
classified missing-locally. -/
theorem classify_dispositions_witness :
    "A" ∈ (classifyExt ([] : LocalDb) [("A", c2Ext)]).1.map Prod.fst :=
  ((classify_dispositions [] [("A", c2Ext)] "A" (by decide)).1).mpr
    ⟨by decide, rfl⟩

/-- C8: a non-success bulk export aborts the entire reconciliation run as a
no-op: the local store is returned unchanged and nothing is uploaded. -/
theorem sync_aborts_on_export_failure (nowTs : Int) (ext : ExtDb) (db : LocalDb) :
    sync_databases nowTs false ext db = .ok ⟨db, []⟩ := rfl

/-- C9 evaluation: the integrity check is supposed to return a boolean and
return `False` when the store file cannot be opened.  Because `connect_db`
never returns the connection it opens, `db_integrity_check` raises an
uncaught `AttributeError` for every store whose file CAN be opened —
regardless of whether the store is intact — and only the cannot-open path
behaves as documented. -/
theorem db_integrity_check_raises_on_openable_store :
    db_integrity_check true true =
      .error (.attributeError "NoneType object has no attribute cursor") ∧
    db_integrity_check true false =
      .error (.attributeError "NoneType object has no attribute cursor") ∧
    db_integrity_check false true = .ok false ∧
    db_integrity_check false false = .ok false :=
  ⟨rfl, rfl, rfl, rfl⟩

/-- Local record of the C1 failing input: present on both sides, strictly
newer locally, with four valid HTTP URLs, so the push-update branch runs. -/
def c1Local : LocalRoom :=
  { picture_urls := ["http://a", "http://b", "http://c", "http://d"]
    description := "local"
    last_updated := 10
    doc_by_user_id := 1
    edits := []
    tags := []
    roomtype := "Hallway"
    edited_by_user_id := none }

/-- Remote record of the C1 failing input (older than the local one). -/
def c1Ext : ExtRoom :=
  { images := ["http://a", "http://b", "http://c", "http://d"]
    description := "remote"
    tags := []
    roomtype := "Hallway"
    documented_by := 1
    last_edited := 5
    last_edited_by := none }

/-- C1 evaluation at the failing input: the entity `R` exists on both sides,
is strictly newer locally and has four valid URLs, so the claim requires the
remote payload to be overwritten with the local one.  Instead the run raises
`TypeError` (the call passes `timestamp=` to an `export_room_to_api`
signature without that parameter) and nothing is uploaded. -/
theorem sync_newer_locally_push_raises :
    sync_databases 0 true [("R", c1Ext)] [("R", c1Local)] =
      .error (.typeError "export_room_to_api got an unexpected keyword argument timestamp") := by
  decide

/-- Local record of the C4 failing input: five valid HTTP(S) URLs, absent
remotely, so the push branch runs. -/
def c4Local : LocalRoom :=
  { picture_urls := ["http://1", "http://2", "http://3", "http://4", "https://5"]
    description := "RoomB desc"
    last_updated := 100
    doc_by_user_id := 2
    edits := []
    tags := ["tag"]
    roomtype := "Parlor"
    edited_by_user_id := none }

/-- C4 evaluation at the failing input: `RoomB` is missing remotely and has
five valid URLs, so the claim requires it to be uploaded with exactly those
URLs.  Instead the run raises `TypeError` on the `export_room_to_api` call
and nothing is uploaded. -/
theorem sync_missing_remotely_push_raises :
    sync_databases 0 true [] [("RoomB", c4Local)] =
      .error (.typeError "export_room_to_api got an unexpected keyword argument timestamp") := by
  decide

theorem mem_insertByMtimeDesc (x s : Snap) (l : List Snap) :
    x ∈ insertByMtimeDesc s l ↔ x = s ∨ x ∈ l := by
  induction l with
  | nil => simp [insertByMtimeDesc]
  | cons t ts ih =>
    unfold insertByMtimeDesc
    by_cases h : s.mtime > t.mtime
    · rw [if_pos h]
      simp
    · rw [if_neg h]
      simp only [List.mem_cons, ih]
      tauto

theorem pairwise_insertByMtimeDesc (s : Snap) (l : List Snap)
    (h : List.Pairwise (fun a b => b.mtime ≤ a.mtime) l) :
    List.Pairwise (fun a b => b.mtime ≤ a.mtime) (insertByMtimeDesc s l) := by
  induction l with
  | nil => simp [insertByMtimeDesc]
  | cons t ts ih =>
    unfold insertByMtimeDesc
    rcases h with _ | ⟨ht, hts⟩
    by_cases hc : s.mtime > t.mtime
    · rw [if_pos hc]
      refine List.Pairwise.cons ?_ (List.Pairwise.cons ht hts)
      intro x hx
      rcases List.mem_cons.mp hx with rfl | hx
      · exact le_of_lt hc
      · exact le_trans (ht x hx) (le_of_lt hc)
    · rw [if_neg hc]
      refine List.Pairwise.cons ?_ (ih hts)
      intro x hx
      rcases (mem_insertByMtimeDesc x s ts).mp hx with rfl | hx
      · exact le_of_not_lt hc
      · exact ht x hx

theorem sortNewestFirst_pairwise (l : List Snap) :
    List.Pairwise (fun a b => b.mtime ≤ a.mtime) (sortNewestFirst l) := by
  induction l with
  | nil => exact List.Pairwise.nil
  | cons s rest ih => exact pairwise_insertByMtimeDesc s _ ih

/-- C6 evaluation at the failing input: a store whose file cannot be opened
(so its integrity check returned `False`) and whose replica holds intact
content.  The claim requires recovery to restore from the replica, re-check
integrity, find the store healthy and stop with no snapshot restore
attempted.  Instead the re-check runs `db_integrity_check` on the now
openable file and raises an uncaught `AttributeError` (`connect_db` never
returns the connection), crashing the recovery; the same happens after any
successful snapshot restore, so the cascade completes without raising only
when every restore fails - e.g. with no replica and no snapshots it
exhausts indices 0, 1, 2 returning `False` each time, without raising. -/
theorem recover_store_recheck_raises :
    recover_store (fun _ => true) (some 5) [⟨1, 9⟩] none =
      .error (.attributeError "NoneType object has no attribute cursor") ∧
    recover_store (fun _ => true) none [⟨1, 9⟩] none =
      .error (.attributeError "NoneType object has no attribute cursor") ∧
    recover_store (fun _ => true) none [] none = .ok (none, [0, 1, 2]) := by
  decide

/-- C7 counterexample: a snapshot aged past `max_age` whose deletion fails
(`delOk` returns false) survives the sweep, so the sweep does not guarantee
that no over-age snapshot remains. -/
theorem prune_sweep_old_snapshot_survives_failed_delete :
    (10 : Int) - (0 : Int) ≥ (5 : Int) ∧
    (prune_sweep 10 5 (fun _ => false) [⟨"old", 0⟩]).1 = [⟨"old", 0⟩] := by
  constructor
  · decide
  · rfl

theorem prune_sweep_cons (time_now max_age : Int) (delOk : String → Bool)
    (f : SnapFile) (rest : List SnapFile) :
    prune_sweep time_now max_age delOk (f :: rest) =
      if time_now - f.mtime ≥ max_age then
        if delOk f.name = true then
          ((prune_sweep time_now max_age delOk rest).1,
            f.name :: (prune_sweep time_now max_age delOk rest).2)
        else
          (f :: (prune_sweep time_now max_age delOk rest).1,
            (prune_sweep time_now max_age delOk rest).2)
      else
        (f :: (prune_sweep time_now max_age delOk rest).1,
          (prune_sweep time_now max_age delOk rest).2) := rfl

/-- C7 amended: after a prune sweep (1) every remaining over-age snapshot is
one whose deletion failed; (2) if every attempted deletion succeeds, no
snapshot whose age meets or exceeds `max_age` remains; (3) an over-age
snapshot whose own deletion succeeds is deleted regardless of failures on
other snapshots — the sweep examines every file. -/
theorem prune_sweep_spec (time_now max_age : Int) (delOk : String → Bool)
    (files : List SnapFile) :
    (∀ f ∈ (prune_sweep time_now max_age delOk files).1,
      time_now - f.mtime ≥ max_age → delOk f.name = false) ∧
    ((∀ f ∈ files, time_now - f.mtime ≥ max_age → delOk f.name = true) →
      ∀ f ∈ (prune_sweep time_now max_age delOk files).1,
        time_now - f.mtime < max_age) ∧
    (∀ f ∈ files, time_now - f.mtime ≥ max_age → delOk f.name = true →
      f.name ∈ (prune_sweep time_now max_age delOk files).2) := by
  induction files with
  | nil =>
    refine ⟨?_, ?_, ?_⟩
    · intro f hf
      simp [prune_sweep] at hf
    · intro _ f hf
      simp [prune_sweep] at hf
    · intro f hf
      simp at hf
  | cons f rest ih =>
    obtain ⟨ih1, ih2, ih3⟩ := ih
    by_cases hage : time_now - f.mtime ≥ max_age
    · by_cases hdel : delOk f.name = true
      · have hstep : prune_sweep time_now max_age delOk (f :: rest) =
            ((prune_sweep time_now max_age delOk rest).1,
              f.name :: (prune_sweep time_now max_age delOk rest).2) := by
          rw [prune_sweep_cons, if_pos hage, if_pos hdel]
        refine ⟨?_, ?_, ?_⟩
        · intro g hg
          rw [hstep] at hg
          exact ih1 g hg
        · intro hall g hg
          rw [hstep] at hg
          exact ih2 (fun x hx hxa => hall x (List.mem_cons_of_mem f hx) hxa) g hg
        · intro g hg hga hgd
          rw [hstep]
          rcases List.mem_cons.mp hg with rfl | hg
          · exact List.mem_cons_self _ _
          · exact List.mem_cons_of_mem _ (ih3 g hg hga hgd)
      · have hdel' : delOk f.name = false := by
          simpa using hdel
        have hstep : prune_sweep time_now max_age delOk (f :: rest) =
            (f :: (prune_sweep time_now max_age delOk rest).1,
              (prune_sweep time_now max_age delOk rest).2) := by
          rw [prune_sweep_cons, if_pos hage, if_neg hdel]
        refine ⟨?_, ?_, ?_⟩
        · intro g hg
          rw [hstep] at hg
          rcases List.mem_cons.mp hg with rfl | hg
          · intro _
            exact hdel'
          · exact ih1 g hg
        · intro hall
          exact absurd (hall f (List.mem_cons_self _ _) hage) hdel
        · intro g hg hga hgd
          rw [hstep]
          rcases List.mem_cons.mp hg with rfl | hg
          · exact absurd hgd hdel
          · exact ih3 g hg hga hgd
    · have hstep : prune_sweep time_now max_age delOk (f :: rest) =
          (f :: (prune_sweep time_now max_age delOk rest).1,
            (prune_sweep time_now max_age delOk rest).2) := by
        rw [prune_sweep_cons, if_neg hage]
      refine ⟨?_, ?_, ?_⟩
      · intro g hg
        rw [hstep] at hg
        rcases List.mem_cons.mp hg with rfl | hg
        · intro hga
          exact absurd hga hage
        · exact ih1 g hg
      · intro hall g hg
        rw [hstep] at hg
        rcases List.mem_cons.mp hg with rfl | hg
        · exact lt_of_not_ge hage
        · exact ih2 (fun x hx hxa => hall x (List.mem_cons_of_mem f hx) hxa) g hg
      · intro g hg hga hgd
        rw [hstep]
        rcases List.mem_cons.mp hg with rfl | hg
        · exact absurd hga hage
        · exact ih3 g hg hga hgd

/-- C7 witness: a sweep at time 10 with max age 5 over one snapshot of age
10, all deletions succeeding, leaves nothing over-age behind. -/
theorem prune_sweep_spec_witness :
    ¬ (⟨"a", (0 : Int)⟩ : SnapFile) ∈
      (prune_sweep 10 5 (fun _ => true) [⟨"a", 0⟩]).1 := by
  intro hmem
  have h := (prune_sweep_spec 10 5 (fun _ => true) [⟨"a", 0⟩]).2.1
    (by intro f hf hfa; rfl) ⟨"a", 0⟩ hmem
  simp at h

/-- Local record of the C5 counterexample: only one valid HTTP URL, absent
remotely, so every run skips its push. -/
def c5Local : LocalRoom :=
  { picture_urls := ["http://1", "local/path.png"]
    description := "RoomC"
    last_updated := 3
    doc_by_user_id := 1
    edits := []
    tags := []
    roomtype := "Hallway"
    edited_by_user_id := none }

/-- C5 counterexample: one run over a local-only room with fewer than 4
valid URLs changes nothing (the push is skipped), so the second run sees the
identical state — and classifies the room as missing externally again, not
as in sync.  The claim that the second run classifies every entity `in_sync`
is false; only the zero-transitions half survives. -/
theorem sync_twice_counterexample :
    sync_databases 0 true [] [("RoomC", c5Local)] =
      .ok ⟨[("RoomC", c5Local)], []⟩ ∧
    classifyLocalLoop [("RoomC", c5Local)] [] [("RoomC", c5Local)] =
      [("RoomC", c5Local)] := by
  decide

theorem lookupExact_updateRow_ne (db : LocalDb) (n : String) (r : LocalRoom)
    (m : String) (hm : m ≠ n) :
    lookupExact (updateRow db n r) m = lookupExact db m := by
  induction db with
  | nil => rfl
  | cons p db ih =>
    obtain ⟨k, r0⟩ := p
    rw [updateRow_cons]
    by_cases hk : k = n
    · rw [if_pos hk, lookupExact_cons, lookupExact_cons]
      by_cases hkm : k = m
      · exact absurd (hkm.symm.trans hk) hm
      · rw [if_neg hkm, if_neg hkm]
        exact ih
    · rw [if_neg hk, lookupExact_cons, lookupExact_cons]
      by_cases hkm : k = m
      · rw [if_pos hkm, if_pos hkm]
      · rw [if_neg hkm, if_neg hkm]
        exact ih

theorem lookupExact_append_single_ne (db : LocalDb) (n : String)
    (row : LocalRoom) (m : String) (hm : m ≠ n) :
    lookupExact (db ++ [(n, row)]) m = lookupExact db m := by
  induction db with
  | nil =>
    rw [List.nil_append, lookupExact_cons, if_neg (fun h => hm h.symm)]
  | cons p db ih =>
    obtain ⟨k, r0⟩ := p
    rw [List.cons_append, lookupExact_cons, lookupExact_cons]
    by_cases hkm : k = m
    · rw [if_pos hkm, if_pos hkm]
    · rw [if_neg hkm, if_neg hkm]
      exact ih

theorem mem_names_of_lookupExact (db : LocalDb) (n : String) (l : LocalRoom)
    (h : lookupExact db n = some l) : n ∈ db.map Prod.fst := by
  induction db with
  | nil => cases h
  | cons p db ih =>
    obtain ⟨k, r0⟩ := p
    rw [lookupExact_cons] at h
    by_cases hk : k = n
    · exact List.mem_map.mpr ⟨(k, r0), List.mem_cons_self _ _, hk⟩
    · rw [if_neg hk] at h
      rw [List.map_cons]
      exact List.mem_cons_of_mem _ (ih h)

theorem replace_doc_lookup_ne (db : LocalDb) (n : String) (urls : List String)
    (desc : String) (docBy : Int) (tags : List String) (rt : String) (ts : Int)
    (editor : Option Int) (edits : Option (List EditEntry)) (m : String)
    (hm : m ≠ n) :
    lookupExact (replace_doc db n urls desc docBy tags rt ts editor edits) m =
      lookupExact db m := by
  unfold replace_doc
  cases hx : lookupExact db n with
  | some x =>
    simp only [hx]
    exact lookupExact_updateRow_ne db n _ m hm
  | none =>
    simp only [hx]
    exact lookupExact_append_single_ne db n _ m hm

theorem replace_doc_names_subset (db : LocalDb) (n : String)
    (urls : List String) (desc : String) (docBy : Int) (tags : List String)
    (rt : String) (ts : Int) (editor : Option Int)
    (edits : Option (List EditEntry)) (x : String)
    (hx : x ∈ (replace_doc db n urls desc docBy tags rt ts editor edits).map
      Prod.fst) :
    x ∈ db.map Prod.fst ∨ x = n := by
  unfold replace_doc at hx
  cases hex : lookupExact db n with
  | some r =>
    rw [hex] at hx
    left
    obtain ⟨p, hp, hpx⟩ := List.mem_map.mp hx
    unfold updateRow at hp
    obtain ⟨q, hq, hqp⟩ := List.mem_map.mp hp
    by_cases hqn : (q.1 == n) = true
    · rw [if_pos hqn] at hqp
      refine List.mem_map.mpr ⟨q, hq, ?_⟩
      rw [← hpx, ← hqp]
    · rw [if_neg hqn] at hqp
      refine List.mem_map.mpr ⟨q, hq, ?_⟩
      rw [← hpx, ← hqp]
  | none =>
    rw [hex] at hx
    rw [List.map_append] at hx
    rcases List.mem_append.mp hx with h | h
    · exact Or.inl h
    · right
      simpa using h

theorem document_room_lookup_self (nowTs : Int) (db : LocalDb) (n : String)
    (urls : List String) (desc : String) (docBy : Int) (tags : List String)
    (rt : String) (ts : Int) (editor : Option Int) :
    ∃ r, lookupExact
        (document_room nowTs db n urls desc docBy tags rt ts editor) n =
      some r ∧ r.last_updated = ts ∧ r.picture_urls = urls := by
  unfold document_room
  cases hx : lookupExact db n with
  | some old =>
    refine ⟨{ picture_urls := urls
              description := desc
              last_updated := ts
              doc_by_user_id := old.doc_by_user_id
              edits := old.edits ++
                [documentEditEntry nowTs n old docBy ts editor]
              tags := tags
              roomtype := rt
              edited_by_user_id := some (truthyEditor editor docBy) },
      ?_, rfl, rfl⟩
    rw [lookupExact_updateRow_self, hx]
    rfl
  | none =>
    refine ⟨{ picture_urls := urls
              description := desc
              last_updated := ts
              doc_by_user_id := docBy
              edits := []
              tags := tags
              roomtype := rt
              edited_by_user_id := none },
      ?_, rfl, rfl⟩
    rw [lookupExact_append_of_none _ _ _ hx, lookupExact_cons, if_pos rfl]

theorem document_room_lookup_ne (nowTs : Int) (db : LocalDb) (n : String)
    (urls : List String) (desc : String) (docBy : Int) (tags : List String)
    (rt : String) (ts : Int) (editor : Option Int) (m : String) (hm : m ≠ n) :
    lookupExact (document_room nowTs db n urls desc docBy tags rt ts editor) m =
      lookupExact db m := by
  unfold document_room
  cases hx : lookupExact db n with
  | some old =>
    simp only [hx]
    exact lookupExact_updateRow_ne db n _ m hm
  | none =>
    simp only [hx]
    exact lookupExact_append_single_ne db n _ m hm

theorem document_room_names_subset (nowTs : Int) (db : LocalDb) (n : String)
    (urls : List String) (desc : String) (docBy : Int) (tags : List String)
    (rt : String) (ts : Int) (editor : Option Int) (x : String)
    (hx : x ∈ (document_room nowTs db n urls desc docBy tags rt ts
      editor).map Prod.fst) :
    x ∈ db.map Prod.fst ∨ x = n := by
  unfold document_room at hx
  cases hex : lookupExact db n with
  | some r =>
    rw [hex] at hx
    left
    obtain ⟨p, hp, hpx⟩ := List.mem_map.mp hx
    unfold updateRow at hp
    obtain ⟨q, hq, hqp⟩ := List.mem_map.mp hp
    by_cases hqn : (q.1 == n) = true
    · rw [if_pos hqn] at hqp
      refine List.mem_map.mpr ⟨q, hq, ?_⟩
      rw [← hpx, ← hqp]
    · rw [if_neg hqn] at hqp
      refine List.mem_map.mpr ⟨q, hq, ?_⟩
      rw [← hpx, ← hqp]
  | none =>
    rw [hex] at hx
    rw [List.map_append] at hx
    rcases List.mem_append.mp hx with h | h
    · exact Or.inl h
    · right
      simpa using h

theorem classifyExt_ml_sublist (db : LocalDb) (ext : ExtDb) :
    List.Sublist (classifyExt db ext).1 ext := by
  induction ext with
  | nil => simp [classifyExt]
  | cons p rest ih =>
    obtain ⟨m, e0⟩ := p
    cases hg : get_roominfo db m with
    | none =>
      have h : (classifyExt db ((m, e0) :: rest)).1 =
          (m, e0) :: (classifyExt db rest).1 := by
        rw [classifyExt_cons, hg]
      rw [h]
      exact List.Sublist.cons₂ _ ih
    | some lm =>
      have h : (classifyExt db ((m, e0) :: rest)).1 =
          (classifyExt db rest).1 := by
        rw [classifyExt_cons, hg]
        by_cases hc1 : lm.last_updated > e0.last_edited
        · simp only [if_pos hc1]
        · by_cases hc2 : e0.last_edited > lm.last_updated
          · simp only [if_neg hc1, if_pos hc2]
          · simp only [if_neg hc1, if_neg hc2]
      rw [h]
      exact List.Sublist.cons _ ih

theorem classifyExt_nl_names_sublist (db : LocalDb) (ext : ExtDb) :
    List.Sublist ((classifyExt db ext).2.1.map Prod.fst) (ext.map Prod.fst) := by
  induction ext with
  | nil => simp [classifyExt]
  | cons p rest ih =>
    obtain ⟨m, e0⟩ := p
    rw [List.map_cons]
    cases hg : get_roominfo db m with
    | none =>
      have h : (classifyExt db ((m, e0) :: rest)).2.1 =
          (classifyExt db rest).2.1 := by
        rw [classifyExt_cons, hg]
      rw [h]
      exact List.Sublist.cons _ ih
    | some lm =>
      by_cases hc1 : lm.last_updated > e0.last_edited
      · have h : (classifyExt db ((m, e0) :: rest)).2.1 =
            (m, lm) :: (classifyExt db rest).2.1 := by
          rw [classifyExt_cons, hg]
          simp only [if_pos hc1]
        rw [h, List.map_cons]
        exact List.Sublist.cons₂ _ ih
      · have h : (classifyExt db ((m, e0) :: rest)).2.1 =
            (classifyExt db rest).2.1 := by
          rw [classifyExt_cons, hg]
          by_cases hc2 : e0.last_edited > lm.last_updated
          · simp only [if_neg hc1, if_pos hc2]
          · simp only [if_neg hc1, if_neg hc2]
        rw [h]
        exact List.Sublist.cons _ ih

theorem classifyExt_ne_names_sublist (db : LocalDb) (ext : ExtDb) :
    List.Sublist ((classifyExt db ext).2.2.map Prod.fst) (ext.map Prod.fst) := by
  induction ext with
  | nil => simp [classifyExt]
  | cons p rest ih =>
    obtain ⟨m, e0⟩ := p
    rw [List.map_cons]
    cases hg : get_roominfo db m with
    | none =>
      have h : (classifyExt db ((m, e0) :: rest)).2.2 =
          (classifyExt db rest).2.2 := by
        rw [classifyExt_cons, hg]
      rw [h]
      exact List.Sublist.cons _ ih
    | some lm =>
      by_cases hc1 : lm.last_updated > e0.last_edited
      · have h : (classifyExt db ((m, e0) :: rest)).2.2 =
            (classifyExt db rest).2.2 := by
          rw [classifyExt_cons, hg]
          simp only [if_pos hc1]
        rw [h]
        exact List.Sublist.cons _ ih
      · by_cases hc2 : e0.last_edited > lm.last_updated
        · have h : (classifyExt db ((m, e0) :: rest)).2.2 =
              (m, e0) :: (classifyExt db rest).2.2 := by
            rw [classifyExt_cons, hg]
            simp only [if_neg hc1, if_pos hc2]
          rw [h, List.map_cons]
          exact List.Sublist.cons₂ _ ih
        · have h : (classifyExt db ((m, e0) :: rest)).2.2 =
              (classifyExt db rest).2.2 := by
            rw [classifyExt_cons, hg]
            simp only [if_neg hc1, if_neg hc2]
          rw [h]
          exact List.Sublist.cons _ ih

theorem classifyLocalLoop_names_sublist (db : LocalDb) (ext : ExtDb)
    (rows : List (String × LocalRoom)) :
    List.Sublist ((classifyLocalLoop db ext rows).map Prod.fst)
      (rows.map Prod.fst) := by
  induction rows with
  | nil => simp [classifyLocalLoop]
  | cons row rest ih =>
    obtain ⟨m, r0⟩ := row
    rw [classifyLocalLoop_cons, List.map_cons]
    by_cases hm : ext.any (fun p => p.1 == m) = true
    · rw [if_pos hm]
      exact List.Sublist.cons _ ih
    · rw [if_neg hm]
      cases hg : get_roominfo db m with
      | some lm =>
        rw [List.map_cons]
        exact List.Sublist.cons₂ _ ih
      | none => exact List.Sublist.cons _ ih

theorem get_eq_lookup (names : List String)
    (hinj : ∀ a ∈ names, ∀ b ∈ names, sqliteLower a = sqliteLower b → a = b)
    (db : LocalDb) (n : String)
    (hdb : ∀ x ∈ db.map Prod.fst, x ∈ names) (hn : n ∈ names) :
    get_roominfo db n = lookupExact db n := by
  induction db with
  | nil => rfl
  | cons p db ih =>
    obtain ⟨m, r0⟩ := p
    have hm : m ∈ names := hdb m (by simp)
    rw [get_roominfo_cons, lookupExact_cons]
    by_cases hlow : sqliteLower m = sqliteLower n
    · rw [if_pos hlow, if_pos (hinj m hm n hn hlow)]
    · have hne : m ≠ n := fun h => hlow (by rw [h])
      rw [if_neg hlow, if_neg hne]
      exact ih fun x hx =>
        hdb x (by rw [List.map_cons]; exact List.mem_cons_of_mem _ hx)

theorem ext_find_eq_of_mem (ext : ExtDb) (he : (ext.map Prod.fst).Nodup)
    (n : String) (e : ExtRoom) (hin : (n, e) ∈ ext) :
    ext.find? (fun p => p.1 == n) = some (n, e) := by
  induction ext with
  | nil => cases hin
  | cons p rest ih =>
    obtain ⟨m, e0⟩ := p
    rw [List.map_cons] at he
    have hm := List.nodup_cons.mp he
    rcases List.mem_cons.mp hin with heq | hin'
    · obtain ⟨rfl, rfl⟩ := Prod.mk.injEq .. ▸ heq
      rw [List.find?_cons]
      simp
    · have hmn : m ≠ n := by
        intro h
        subst h
        exact hm.1 (List.mem_map.mpr ⟨(m, e), hin', rfl⟩)
      have hbeq : (((m, e0) : String × ExtRoom).1 == n) = false := by
        simp [hmn]
      rw [List.find?_cons, hbeq]
      exact ih hm.2 hin'

theorem pullRoomFromExt_lookup_self (db : LocalDb) (n : String) (e : ExtRoom) :
    ∃ r, lookupExact (pullRoomFromExt db n e) n = some r ∧
      r.last_updated = e.last_edited ∧ r.picture_urls = validUrls e.images := by
  unfold pullRoomFromExt
  exact ⟨_, replace_doc_lookup db n (validUrls e.images) e.description
    e.documented_by e.tags e.roomtype e.last_edited e.last_edited_by
    ((get_roominfo db n).map (fun r => r.edits)), rfl, rfl⟩

theorem pullRoomFromExt_lookup_ne (db : LocalDb) (n : String) (e : ExtRoom)
    (m : String) (hm : m ≠ n) :
    lookupExact (pullRoomFromExt db n e) m = lookupExact db m := by
  unfold pullRoomFromExt
  exact replace_doc_lookup_ne db n (validUrls e.images) e.description
    e.documented_by e.tags e.roomtype e.last_edited e.last_edited_by
    ((get_roominfo db n).map (fun r => r.edits)) m hm

theorem pullRoomFromExt_names_subset (db : LocalDb) (n : String) (e : ExtRoom)
    (x : String) (hx : x ∈ (pullRoomFromExt db n e).map Prod.fst) :
    x ∈ db.map Prod.fst ∨ x = n := by
  unfold pullRoomFromExt at hx
  exact replace_doc_names_subset db n (validUrls e.images) e.description
    e.documented_by e.tags e.roomtype e.last_edited e.last_edited_by
    ((get_roominfo db n).map (fun r => r.edits)) x hx

theorem pushMissingExternally_all_skip (L : List (String × LocalRoom))
    (hall : ∀ p ∈ L, (validUrls p.2.picture_urls).length < 4) :
    pushMissingExternally L = .ok [] := by
  induction L with
  | nil => rfl
  | cons p rest ih =>
    obtain ⟨m, l0⟩ := p
    rw [pushMissingExternally,
      if_pos (hall (m, l0) (List.mem_cons_self _ _))]
    exact ih fun q hq => hall q (List.mem_cons_of_mem _ hq)

theorem pullMissingLocally_lookup_notin (L : List (String × ExtRoom))
    (db' : LocalDb) (n : String) (hn : n ∉ L.map Prod.fst) :
    lookupExact (pullMissingLocally db' L) n = lookupExact db' n := by
  induction L generalizing db' with
  | nil => rfl
  | cons p rest ih =>
    obtain ⟨m, e0⟩ := p
    rw [List.map_cons] at hn
    have hstep : pullMissingLocally db' ((m, e0) :: rest) =
        pullMissingLocally (pullRoomFromExt db' m e0) rest := rfl
    rw [hstep, ih _ (fun h => hn (List.mem_cons_of_mem _ h))]
    exact pullRoomFromExt_lookup_ne db' m e0 n
      (fun h => hn (by rw [h]; exact List.mem_cons_self _ _))

theorem pullMissingLocally_lookup_mem (L : List (String × ExtRoom))
    (db' : LocalDb) (hnod : (L.map Prod.fst).Nodup) (n : String) (e : ExtRoom)
    (hin : (n, e) ∈ L) :
    ∃ r, lookupExact (pullMissingLocally db' L) n = some r ∧
      r.last_updated = e.last_edited ∧ r.picture_urls = validUrls e.images := by
  induction L generalizing db' with
  | nil => cases hin
  | cons p rest ih =>
    obtain ⟨m, e0⟩ := p
    rw [List.map_cons] at hnod
    have hmnod := List.nodup_cons.mp hnod
    have hstep : pullMissingLocally db' ((m, e0) :: rest) =
        pullMissingLocally (pullRoomFromExt db' m e0) rest := rfl
    rcases List.mem_cons.mp hin with heq | hin'
    · obtain ⟨rfl, rfl⟩ := Prod.mk.injEq .. ▸ heq
      obtain ⟨r, hr, hts, hpics⟩ := pullRoomFromExt_lookup_self db' n e
      refine ⟨r, ?_, hts, hpics⟩
      rw [hstep, pullMissingLocally_lookup_notin rest _ n hmnod.1]
      exact hr
    · rw [hstep]
      exact ih _ hmnod.2 hin'

theorem pullMissingLocally_names_subset (L : List (String × ExtRoom))
    (db' : LocalDb) (x : String)
    (hx : x ∈ (pullMissingLocally db' L).map Prod.fst) :
    x ∈ db'.map Prod.fst ∨ x ∈ L.map Prod.fst := by
  induction L generalizing db' with
  | nil => exact Or.inl hx
  | cons p rest ih =>
    obtain ⟨m, e0⟩ := p
    have hstep : pullMissingLocally db' ((m, e0) :: rest) =
        pullMissingLocally (pullRoomFromExt db' m e0) rest := rfl
    rw [hstep] at hx
    rcases ih _ hx with h | h
    · rcases pullRoomFromExt_names_subset db' m e0 x h with h' | h'
      · exact Or.inl h'
      · right
        rw [h', List.map_cons]
        exact List.mem_cons_self _ _
    · right
      rw [List.map_cons]
      exact List.mem_cons_of_mem _ h

theorem newerExternallyPhase_lookup_notin (nowTs : Int)
    (L : List (String × ExtRoom)) (db' : LocalDb) (n : String)
    (hn : n ∉ L.map Prod.fst) :
    lookupExact (newerExternallyPhase nowTs db' L) n = lookupExact db' n := by
  induction L generalizing db' with
  | nil => rfl
  | cons p rest ih =>
    obtain ⟨m, e0⟩ := p
    rw [List.map_cons] at hn
    have hstep : newerExternallyPhase nowTs db' ((m, e0) :: rest) =
        newerExternallyPhase nowTs
          (document_room nowTs db' m (validUrls e0.images) e0.description
            e0.documented_by e0.tags e0.roomtype e0.last_edited
            e0.last_edited_by) rest := rfl
    rw [hstep, ih _ (fun h => hn (List.mem_cons_of_mem _ h))]
    exact document_room_lookup_ne nowTs db' m _ _ _ _ _ _ _ n
      (fun h => hn (by rw [h]; exact List.mem_cons_self _ _))

theorem newerExternallyPhase_lookup_mem (nowTs : Int)
    (L : List (String × ExtRoom)) (db' : LocalDb)
    (hnod : (L.map Prod.fst).Nodup) (n : String) (e : ExtRoom)
    (hin : (n, e) ∈ L) :
    ∃ r, lookupExact (newerExternallyPhase nowTs db' L) n = some r ∧
      r.last_updated = e.last_edited := by
  induction L generalizing db' with
  | nil => cases hin
  | cons p rest ih =>
    obtain ⟨m, e0⟩ := p
    rw [List.map_cons] at hnod
    have hmnod := List.nodup_cons.mp hnod
    have hstep : newerExternallyPhase nowTs db' ((m, e0) :: rest) =
        newerExternallyPhase nowTs
          (document_room nowTs db' m (validUrls e0.images) e0.description
            e0.documented_by e0.tags e0.roomtype e0.last_edited
            e0.last_edited_by) rest := rfl
    rcases List.mem_cons.mp hin with heq | hin'
    · obtain ⟨rfl, rfl⟩ := Prod.mk.injEq .. ▸ heq
      obtain ⟨r, hr, hts, -⟩ := document_room_lookup_self nowTs db' n
        (validUrls e.images) e.description e.documented_by e.tags e.roomtype
        e.last_edited e.last_edited_by
      refine ⟨r, ?_, hts⟩
      rw [hstep, newerExternallyPhase_lookup_notin nowTs rest _ n hmnod.1]
      exact hr
    · rw [hstep]
      exact ih _ hmnod.2 hin'

theorem newerExternallyPhase_names_subset (nowTs : Int)
    (L : List (String × ExtRoom)) (db' : LocalDb) (x : String)
    (hx : x ∈ (newerExternallyPhase nowTs db' L).map Prod.fst) :
    x ∈ db'.map Prod.fst ∨ x ∈ L.map Prod.fst := by
  induction L generalizing db' with
  | nil => exact Or.inl hx
  | cons p rest ih =>
    obtain ⟨m, e0⟩ := p
    have hstep : newerExternallyPhase nowTs db' ((m, e0) :: rest) =
        newerExternallyPhase nowTs
          (document_room nowTs db' m (validUrls e0.images) e0.description
            e0.documented_by e0.tags e0.roomtype e0.last_edited
            e0.last_edited_by) rest := rfl
    rw [hstep] at hx
    rcases ih _ hx with h | h
    · rcases document_room_names_subset nowTs db' m _ _ _ _ _ _ _ x h with h' | h'
      · exact Or.inl h'
      · right
        rw [h', List.map_cons]
        exact List.mem_cons_self _ _
    · right
      rw [List.map_cons]
      exact List.mem_cons_of_mem _ h

theorem newerLocallyPhase_all_fallback (ext : ExtDb)
    (he : (ext.map Prod.fst).Nodup) (L : List (String × LocalRoom)) :
    ∀ db' : LocalDb,
    (∀ p ∈ L, (validUrls p.2.picture_urls).length < 4) →
    (L.map Prod.fst).Nodup →
    (∀ p ∈ L, p.1 ∈ ext.map Prod.fst) →
    ∃ db2, newerLocallyPhase ext db' L = .ok (db2, []) ∧
      (∀ n, n ∉ L.map Prod.fst → lookupExact db2 n = lookupExact db' n) ∧
      (∀ n l e, (n, l) ∈ L → (n, e) ∈ ext →
        ∃ r, lookupExact db2 n = some r ∧ r.last_updated = e.last_edited ∧
          r.picture_urls = validUrls e.images) ∧
      (∀ x ∈ db2.map Prod.fst, x ∈ db'.map Prod.fst ∨ x ∈ L.map Prod.fst) := by
  induction L with
  | nil =>
    intro db' _ _ _
    exact ⟨db', rfl, fun n _ => rfl,
      fun n l e h _ => absurd h (List.not_mem_nil _), fun x hx => Or.inl hx⟩
  | cons p rest ih =>
    obtain ⟨m, l0⟩ := p
    intro db' hall hnod hin
    rw [List.map_cons] at hnod
    have hmnod := List.nodup_cons.mp hnod
    have h4 : (validUrls l0.picture_urls).length < 4 :=
      hall (m, l0) (List.mem_cons_self _ _)
    have hmext : m ∈ ext.map Prod.fst := hin (m, l0) (List.mem_cons_self _ _)
    obtain ⟨q, hq, hqm⟩ := List.mem_map.mp hmext
    have hqin : (m, q.2) ∈ ext := by
      rw [← hqm]
      exact hq
    have hfind : ext.find? (fun p => p.1 == m) = some (m, q.2) :=
      ext_find_eq_of_mem ext he m q.2 hqin
    have hstep : newerLocallyPhase ext db' ((m, l0) :: rest) =
        newerLocallyPhase ext
          (replace_doc db' m (validUrls q.2.images) q.2.description
            q.2.documented_by q.2.tags q.2.roomtype q.2.last_edited
            q.2.last_edited_by none) rest := by
      simp only [newerLocallyPhase]
      rw [if_pos h4, hfind]
    obtain ⟨db2, hrun, hnot, hmem2, hsub⟩ :=
      ih (replace_doc db' m (validUrls q.2.images) q.2.description
          q.2.documented_by q.2.tags q.2.roomtype q.2.last_edited
          q.2.last_edited_by none)
        (fun p hp => hall p (List.mem_cons_of_mem _ hp)) hmnod.2
        (fun p hp => hin p (List.mem_cons_of_mem _ hp))
    refine ⟨db2, by rw [hstep]; exact hrun, ?_, ?_, ?_⟩
    · intro n hn
      rw [List.map_cons] at hn
      rw [hnot n (fun h => hn (List.mem_cons_of_mem _ h))]
      exact replace_doc_lookup_ne db' m _ _ _ _ _ _ _ _ n
        (fun h => hn (by rw [h]; exact List.mem_cons_self _ _))
    · intro n l e hl hein
      rcases List.mem_cons.mp hl with heq | hl'
      · obtain ⟨rfl, rfl⟩ := Prod.mk.injEq .. ▸ heq
        obtain rfl := ext_key_unique ext he n q.2 e hqin hein
        rw [hnot n hmnod.1]
        exact ⟨_, replace_doc_lookup db' n (validUrls q.2.images)
          q.2.description q.2.documented_by q.2.tags q.2.roomtype
          q.2.last_edited q.2.last_edited_by none, rfl, rfl⟩
      · exact hmem2 n l e hl' hein
    · intro x hx
      rcases hsub x hx with h | h
      · rcases replace_doc_names_subset db' m _ _ _ _ _ _ _ _ x h with h' | h'
        · exact Or.inl h'
        · right
          rw [h', List.map_cons]
          exact List.mem_cons_self _ _
      · right
        rw [List.map_cons]
        exact List.mem_cons_of_mem _ h

theorem classifyExt_all_in_sync (db' : LocalDb) (ext : ExtDb)
    (h : ∀ n e, (n, e) ∈ ext →
      ∃ l, get_roominfo db' n = some l ∧ l.last_updated = e.last_edited) :
    classifyExt db' ext = ([], [], []) := by
  induction ext with
  | nil => rfl
  | cons p rest ih =>
    obtain ⟨m, e0⟩ := p
    obtain ⟨l, hg, heq⟩ := h m e0 (List.mem_cons_self _ _)
    rw [classifyExt_cons, hg]
    have h1 : ¬ l.last_updated > e0.last_edited := by
      rw [heq]
      exact lt_irrefl _
    have h2 : ¬ e0.last_edited > l.last_updated := by
      rw [heq]
      exact lt_irrefl _
    simp only [if_neg h1, if_neg h2]
    exact ih fun n e hin => h n e (List.mem_cons_of_mem _ hin)

/-- C5 amended: when the remote keys are unique, no two distinct names in
play collide case-insensitively, and every push candidate (missing remotely
or newer locally) has fewer than 4 valid URLs — pushes with at least 4 valid
URLs raise `TypeError` and are excluded — one reconciliation run reaches a
state `db1` from which a second run performs zero state transitions: it
leaves the local store at `db1`, uploads nothing, and classifies every
compared entity as in sync; only skipped pushes re-classify as missing
externally and are skipped again. -/
theorem sync_idempotent_when_no_push (now1 now2 : Int) (db : LocalDb)
    (ext : ExtDb)
    (he : (ext.map Prod.fst).Nodup)
    (hinj : ∀ a ∈ db.map Prod.fst ++ ext.map Prod.fst,
      ∀ b ∈ db.map Prod.fst ++ ext.map Prod.fst,
        sqliteLower a = sqliteLower b → a = b)
    (hme : ∀ p ∈ classifyLocalLoop db ext db,
      (validUrls p.2.picture_urls).length < 4)
    (hnl : ∀ p ∈ (classifyExt db ext).2.1,
      (validUrls p.2.picture_urls).length < 4) :
    ∃ db1, sync_databases now1 true ext db = .ok ⟨db1, []⟩ ∧
      sync_databases now2 true ext db1 = .ok ⟨db1, []⟩ ∧
      classifyExt db1 ext = ([], [], []) ∧
      ∀ p ∈ classifyLocalLoop db1 ext db1,
        (validUrls p.2.picture_urls).length < 4 := by
  have hrun_eq : ∀ (now : Int) (d : LocalDb), sync_databases now true ext d =
      (do
        let ups1 ← pushMissingExternally (classifyLocalLoop d ext d)
        let db1 := pullMissingLocally d (classifyExt d ext).1
        let (db2, ups2) ← newerLocallyPhase ext db1 (classifyExt d ext).2.1
        let db3 := newerExternallyPhase now db2 (classifyExt d ext).2.2
        .ok ⟨db3, ups1 ++ ups2⟩) := fun now d => rfl
  have hml_names_sub : ∀ x ∈ (classifyExt db ext).1.map Prod.fst,
      x ∈ ext.map Prod.fst :=
    fun x hx =>
      (List.Sublist.map Prod.fst (classifyExt_ml_sublist db ext)).subset hx
  have hnl_names_sub : ∀ x ∈ (classifyExt db ext).2.1.map Prod.fst,
      x ∈ ext.map Prod.fst :=
    fun x hx => (classifyExt_nl_names_sublist db ext).subset hx
  have hne_names_sub : ∀ x ∈ (classifyExt db ext).2.2.map Prod.fst,
      x ∈ ext.map Prod.fst :=
    fun x hx => (classifyExt_ne_names_sublist db ext).subset hx
  have hml_nodup : ((classifyExt db ext).1.map Prod.fst).Nodup :=
    List.Nodup.sublist
      (List.Sublist.map Prod.fst (classifyExt_ml_sublist db ext)) he
  have hnl_nodup : ((classifyExt db ext).2.1.map Prod.fst).Nodup :=
    List.Nodup.sublist (classifyExt_nl_names_sublist db ext) he
  have hne_nodup : ((classifyExt db ext).2.2.map Prod.fst).Nodup :=
    List.Nodup.sublist (classifyExt_ne_names_sublist db ext) he
  have hnl_in : ∀ p ∈ (classifyExt db ext).2.1, p.1 ∈ ext.map Prod.fst := by
    intro p hp
    obtain ⟨e', hin', -, -⟩ := (mem_classifyExt_nl db ext p.1 p.2).mp hp
    exact List.mem_map.mpr ⟨(p.1, e'), hin', rfl⟩
  have hpush1 : pushMissingExternally (classifyLocalLoop db ext db) = .ok [] :=
    pushMissingExternally_all_skip _ hme
  obtain ⟨dbB, hrunNL, hnotNL, hmemNL, hsubNL⟩ :=
    newerLocallyPhase_all_fallback ext he (classifyExt db ext).2.1
      (pullMissingLocally db (classifyExt db ext).1) hnl hnl_nodup hnl_in
  have hrun1 : sync_databases now1 true ext db =
      .ok ⟨newerExternallyPhase now1 dbB (classifyExt db ext).2.2, []⟩ := by
    have h1 : sync_databases now1 true ext db =
        Except.bind
          (newerLocallyPhase ext
            (pullMissingLocally db (classifyExt db ext).1)
            (classifyExt db ext).2.1)
          (fun x => Except.ok
            ⟨newerExternallyPhase now1 x.1 (classifyExt db ext).2.2,
              [] ++ x.2⟩) := by
      rw [hrun_eq now1 db, hpush1]
      rfl
    rw [h1, hrunNL]
    rfl
  have hdb_names_sub : ∀ x ∈ db.map Prod.fst,
      x ∈ db.map Prod.fst ++ ext.map Prod.fst :=
    fun x hx => List.mem_append.mpr (Or.inl hx)
  have hext_names_sub : ∀ x, x ∈ ext.map Prod.fst →
      x ∈ db.map Prod.fst ++ ext.map Prod.fst :=
    fun x hx => List.mem_append.mpr (Or.inr hx)
  have hdbC_sub : ∀ x ∈ (newerExternallyPhase now1 dbB
      (classifyExt db ext).2.2).map Prod.fst,
      x ∈ db.map Prod.fst ++ ext.map Prod.fst := by
    intro x hx
    rcases newerExternallyPhase_names_subset now1 _ dbB x hx with h | h
    · rcases hsubNL x h with h' | h'
      · rcases pullMissingLocally_names_subset _ db x h' with h'' | h''
        · exact hdb_names_sub x h''
        · exact hext_names_sub x (hml_names_sub x h'')
      · exact hext_names_sub x (hnl_names_sub x h')
    · exact hext_names_sub x (hne_names_sub x h)
  have hsync_names : ∀ n e, (n, e) ∈ ext →
      ∃ l, lookupExact
          (newerExternallyPhase now1 dbB (classifyExt db ext).2.2) n =
        some l ∧ l.last_updated = e.last_edited := by
    intro n e hin
    have hnext : n ∈ ext.map Prod.fst := List.mem_map.mpr ⟨(n, e), hin, rfl⟩
    cases hg : get_roominfo db n with
    | none =>
      have hml : (n, e) ∈ (classifyExt db ext).1 :=
        (mem_classifyExt_ml db ext n e).mpr ⟨hin, hg⟩
      have hn_nl : n ∉ (classifyExt db ext).2.1.map Prod.fst := by
        intro hcon
        obtain ⟨p, hp, hpn⟩ := List.mem_map.mp hcon
        obtain ⟨e', -, hsome, -⟩ := (mem_classifyExt_nl db ext p.1 p.2).mp hp
        rw [hpn, hg] at hsome
        cases hsome
      have hn_ne : n ∉ (classifyExt db ext).2.2.map Prod.fst := by
        intro hcon
        obtain ⟨p, hp, hpn⟩ := List.mem_map.mp hcon
        obtain ⟨-, l', hsome, -⟩ := (mem_classifyExt_ne db ext p.1 p.2).mp hp
        rw [hpn, hg] at hsome
        cases hsome
      obtain ⟨r, hr, hts, -⟩ := pullMissingLocally_lookup_mem
        (classifyExt db ext).1 db hml_nodup n e hml
      refine ⟨r, ?_, hts⟩
      rw [newerExternallyPhase_lookup_notin now1 _ dbB n hn_ne,
        hnotNL n hn_nl]
      exact hr
    | some l0 =>
      by_cases hc1 : l0.last_updated > e.last_edited
      · have hnl_mem : (n, l0) ∈ (classifyExt db ext).2.1 :=
          (mem_classifyExt_nl db ext n l0).mpr ⟨e, hin, hg, hc1⟩
        have hn_ne : n ∉ (classifyExt db ext).2.2.map Prod.fst := by
          intro hcon
          obtain ⟨p, hp, hpn⟩ := List.mem_map.mp hcon
          obtain ⟨hin', l', hsome, hgt⟩ :=
            (mem_classifyExt_ne db ext p.1 p.2).mp hp
          rw [hpn] at hin' hsome
          obtain rfl := ext_key_unique ext he n p.2 e hin' hin
          rw [hg] at hsome
          obtain rfl := Option.some.injEq .. ▸ hsome
          exact absurd hgt (not_lt_of_gt hc1)
        obtain ⟨r, hr, hts, -⟩ := hmemNL n l0 e hnl_mem hin
        refine ⟨r, ?_, hts⟩
        rw [newerExternallyPhase_lookup_notin now1 _ dbB n hn_ne]
        exact hr
      · by_cases hc2 : e.last_edited > l0.last_updated
        · have hne_mem : (n, e) ∈ (classifyExt db ext).2.2 :=
            (mem_classifyExt_ne db ext n e).mpr ⟨hin, l0, hg, hc2⟩
          exact newerExternallyPhase_lookup_mem now1 _ dbB hne_nodup n e hne_mem
        · have heq : l0.last_updated = e.last_edited :=
            le_antisymm (not_lt.mp hc1) (not_lt.mp hc2)
          have hn_ml : n ∉ (classifyExt db ext).1.map Prod.fst := by
            intro hcon
            obtain ⟨p, hp, hpn⟩ := List.mem_map.mp hcon
            obtain ⟨-, hnone⟩ := (mem_classifyExt_ml db ext p.1 p.2).mp hp
            rw [hpn, hg] at hnone
            cases hnone
          have hn_nl : n ∉ (classifyExt db ext).2.1.map Prod.fst := by
            intro hcon
            obtain ⟨p, hp, hpn⟩ := List.mem_map.mp hcon
            obtain ⟨e', hin', hsome, hgt⟩ :=
              (mem_classifyExt_nl db ext p.1 p.2).mp hp
            rw [hpn] at hin' hsome
            obtain rfl := ext_key_unique ext he n e' e hin' hin
            rw [hg] at hsome
            obtain rfl := Option.some.injEq .. ▸ hsome
            exact absurd hgt hc1
          have hn_ne : n ∉ (classifyExt db ext).2.2.map Prod.fst := by
            intro hcon
            obtain ⟨p, hp, hpn⟩ := List.mem_map.mp hcon
            obtain ⟨hin', l', hsome, hgt⟩ :=
              (mem_classifyExt_ne db ext p.1 p.2).mp hp
            rw [hpn] at hin' hsome
            obtain rfl := ext_key_unique ext he n p.2 e hin' hin
            rw [hg] at hsome
            obtain rfl := Option.some.injEq .. ▸ hsome
            exact absurd hgt hc2
          have hlook : lookupExact db n = some l0 := by
            rw [← get_eq_lookup (db.map Prod.fst ++ ext.map Prod.fst) hinj db n
              hdb_names_sub (hext_names_sub n hnext)]
            exact hg
          refine ⟨l0, ?_, heq⟩
          rw [newerExternallyPhase_lookup_notin now1 _ dbB n hn_ne,
            hnotNL n hn_nl,
            pullMissingLocally_lookup_notin _ db n hn_ml]
          exact hlook
  have hget_dbC : ∀ n, n ∈ db.map Prod.fst ++ ext.map Prod.fst →
      get_roominfo (newerExternallyPhase now1 dbB (classifyExt db ext).2.2) n =
        lookupExact (newerExternallyPhase now1 dbB (classifyExt db ext).2.2) n :=
    fun n hn => get_eq_lookup _ hinj _ n hdbC_sub hn
  have hsync_get : ∀ n e, (n, e) ∈ ext →
      ∃ l, get_roominfo
          (newerExternallyPhase now1 dbB (classifyExt db ext).2.2) n =
        some l ∧ l.last_updated = e.last_edited := by
    intro n e hin
    obtain ⟨l, hl', hts⟩ := hsync_names n e hin
    refine ⟨l, ?_, hts⟩
    rw [hget_dbC n (hext_names_sub n (List.mem_map.mpr ⟨(n, e), hin, rfl⟩))]
    exact hl'
  have hclass2 : classifyExt
      (newerExternallyPhase now1 dbB (classifyExt db ext).2.2) ext =
      ([], [], []) :=
    classifyExt_all_in_sync _ ext hsync_get
  have hme2 : ∀ p ∈ classifyLocalLoop
      (newerExternallyPhase now1 dbB (classifyExt db ext).2.2) ext
      (newerExternallyPhase now1 dbB (classifyExt db ext).2.2),
      (validUrls p.2.picture_urls).length < 4 := by
    intro p hp
    obtain ⟨hrows, hany, hget⟩ :=
      (mem_classifyLocalLoop _ ext _ p.1 p.2).mp hp
    have hnotext : p.1 ∉ ext.map Prod.fst :=
      (ext_any_eq_false_iff ext p.1).mp hany
    have hn_ml : p.1 ∉ (classifyExt db ext).1.map Prod.fst :=
      fun h => hnotext (hml_names_sub p.1 h)
    have hn_nl : p.1 ∉ (classifyExt db ext).2.1.map Prod.fst :=
      fun h => hnotext (hnl_names_sub p.1 h)
    have hn_ne : p.1 ∉ (classifyExt db ext).2.2.map Prod.fst :=
      fun h => hnotext (hne_names_sub p.1 h)
    have huntouched : lookupExact
        (newerExternallyPhase now1 dbB (classifyExt db ext).2.2) p.1 =
        lookupExact db p.1 := by
      rw [newerExternallyPhase_lookup_notin now1 _ dbB p.1 hn_ne,
        hnotNL p.1 hn_nl,
        pullMissingLocally_lookup_notin _ db p.1 hn_ml]
    have hsome : lookupExact db p.1 = some p.2 := by
      rw [← huntouched, ← hget_dbC p.1 (hdbC_sub p.1 hrows)]
      exact hget
    have hdbnames := mem_names_of_lookupExact db p.1 p.2 hsome
    have hgdb : get_roominfo db p.1 = some p.2 := by
      rw [get_eq_lookup (db.map Prod.fst ++ ext.map Prod.fst) hinj db p.1
        hdb_names_sub (hdb_names_sub p.1 hdbnames)]
      exact hsome
    exact hme (p.1, p.2)
      ((mem_classifyLocalLoop db ext db p.1 p.2).mpr ⟨hdbnames, hany, hgdb⟩)
  have hrun2 : sync_databases now2 true ext
      (newerExternallyPhase now1 dbB (classifyExt db ext).2.2) =
      .ok ⟨newerExternallyPhase now1 dbB (classifyExt db ext).2.2, []⟩ := by
    have h1 : sync_databases now2 true ext
        (newerExternallyPhase now1 dbB (classifyExt db ext).2.2) =
        Except.bind
          (newerLocallyPhase ext
            (pullMissingLocally
              (newerExternallyPhase now1 dbB (classifyExt db ext).2.2)
              (classifyExt
                (newerExternallyPhase now1 dbB (classifyExt db ext).2.2)
                ext).1)
            (classifyExt
              (newerExternallyPhase now1 dbB (classifyExt db ext).2.2)
              ext).2.1)
          (fun x => Except.ok
            ⟨newerExternallyPhase now2 x.1
              (classifyExt
                (newerExternallyPhase now1 dbB (classifyExt db ext).2.2)
                ext).2.2,
              [] ++ x.2⟩) := by
      rw [hrun_eq now2 _, pushMissingExternally_all_skip _ hme2]
      rfl
    rw [h1]
    simp only [hclass2]
    rfl
  exact ⟨newerExternallyPhase now1 dbB (classifyExt db ext).2.2,
    hrun1, hrun2, hclass2, hme2⟩

/-- C5 witness: a local-only room with one valid URL and a remote-only room,
exercising the amended idempotence theorem at a concrete input. -/
theorem sync_idempotent_when_no_push_witness :
    ∃ db1, sync_databases 0 true [("RoomD", c2Ext)] [("RoomC", c5Local)] =
        .ok ⟨db1, []⟩ ∧
      sync_databases 1 true [("RoomD", c2Ext)] db1 = .ok ⟨db1, []⟩ ∧
      classifyExt db1 [("RoomD", c2Ext)] = ([], [], []) ∧
      ∀ p ∈ classifyLocalLoop db1 [("RoomD", c2Ext)] db1,
        (validUrls p.2.picture_urls).length < 4 :=
  sync_idempotent_when_no_push 0 1 [("RoomC", c5Local)] [("RoomD", c2Ext)]
    (by decide) (by decide) (by decide) (by decide)

/-- C10: `document_room` on an existing room name replaces the payload and
appends exactly one edit-history entry recording the previous payload
(pictures, tags, description, roomtype, documenting user), keeping every
earlier entry in place; on a new name it inserts the record with empty
history. -/
theorem document_room_history_growth (nowTs : Int) (db : LocalDb)
    (room_name : String) (picture_urls : List String) (description : String)
    (doc_by_user_id : Int) (tags : List String) (roomtype : String)
    (timestamp : Int) (edited_by_user_id : Option Int) :
    (∀ old, lookupExact db room_name = some old →
      lookupExact
        (document_room nowTs db room_name picture_urls description
          doc_by_user_id tags roomtype timestamp edited_by_user_id) room_name =
      some
        { picture_urls := picture_urls
          description := description
          last_updated := timestamp
          doc_by_user_id := old.doc_by_user_id
          edits := old.edits ++
            [documentEditEntry nowTs room_name old doc_by_user_id timestamp
              edited_by_user_id]
          tags := tags
          roomtype := roomtype
          edited_by_user_id := some (truthyEditor edited_by_user_id doc_by_user_id) }) ∧
    (lookupExact db room_name = none →
      lookupExact
        (document_room nowTs db room_name picture_urls description
          doc_by_user_id tags roomtype timestamp edited_by_user_id) room_name =
      some
        { picture_urls := picture_urls
          description := description
          last_updated := timestamp
          doc_by_user_id := doc_by_user_id
          edits := []
          tags := tags
          roomtype := roomtype
          edited_by_user_id := none }) := by
  constructor
  · intro old hold
    unfold document_room
    rw [hold]
    rw [lookupExact_updateRow_self, hold]
    rfl
  · intro hnone
    unfold document_room
    rw [hnone]
    rw [lookupExact_append_of_none _ _ _ hnone, lookupExact_cons]
    simp

/-- C10 witness: applying `document_room_history_growth` to a concrete
one-room store. -/
theorem document_room_history_growth_witness :
    lookupExact
      (document_room 7 [("A", c1Local)] "A" ["http://z"] "new" 3 [] "Vault" 42 (some 9))
      "A" =
    some
      { picture_urls := ["http://z"]
        description := "new"
        last_updated := 42
        doc_by_user_id := c1Local.doc_by_user_id
        edits := c1Local.edits ++
          [documentEditEntry 7 "A" c1Local 3 42 (some 9)]
        tags := []
        roomtype := "Vault"
        edited_by_user_id := some (truthyEditor (some 9) 3) } :=
  (document_room_history_growth 7 [("A", c1Local)] "A" ["http://z"] "new" 3 []
    "Vault" 42 (some 9)).1 c1Local (by decide)

end FRD
